import Mathlib

/-!
Verification of the iHosts parse/serialize engine and change-tracking store.

The TypeScript sources are embedded shallowly: strings are `List Char`
(wrapped into `String` at entry boundaries), the JavaScript string
operations used by the code (`split(/\s+/)`, `split("::")`, `trim()`,
`startsWith`, `includes`, the inline-comment regex) are modelled by
executable functions below, and entries are a Lean structure mirroring
the `HostEntry` interface.
-/

namespace IHosts

/-- Whitespace characters as matched by the JavaScript regex class. -/
def isWsChar (c : Char) : Bool :=
  c = ' ' || c = '\t' || c = '\n' || c = '\r' || c = '\x0b' || c = '\x0c'

/-- Drop leading whitespace (left part of `String.prototype.trim`). -/
def trimL (l : List Char) : List Char := l.dropWhile isWsChar

/-- Model of `String.prototype.trim`: drop whitespace at both ends. -/
def jsTrim (l : List Char) : List Char :=
  ((l.dropWhile isWsChar).reverse.dropWhile isWsChar).reverse

/-- Does the string start with the given candidate (model of `String.prototype.startsWith`)? -/
def startsWithL : List Char → List Char → Bool
  | _, [] => true
  | [], _ :: _ => false
  | c :: cs, d :: ds => c = d && startsWithL cs ds

/-- Model of `str.split(/\s+/)`: split on maximal whitespace runs, keeping an
empty first (last) field when the string starts (ends) with whitespace. -/
def wsSplit : List Char → List (List Char)
  | [] => [[]]
  | [c] => if isWsChar c then [[], []] else [[c]]
  | c :: d :: rest =>
    if isWsChar c then
      if isWsChar d then wsSplit (d :: rest)
      else [] :: wsSplit (d :: rest)
    else
      match wsSplit (d :: rest) with
      | [] => [[c]]
      | t :: ts => (c :: t) :: ts

/-- Model of `str.split(sep)` for a one-character separator (used by the
source with `"\n"`, `"."` and `":"`). -/
def splitOnChar (sep : Char) : List Char → List (List Char)
  | [] => [[]]
  | c :: rest =>
    if c = sep then [] :: splitOnChar sep rest
    else
      match splitOnChar sep rest with
      | [] => [[c]]
      | t :: ts => (c :: t) :: ts

/-- Model of `str.split("::")`: left-to-right scan, splitting at each
non-overlapping occurrence of the two-colon separator. -/
def splitOnColonColon : List Char → List (List Char)
  | [] => [[]]
  | [c] => [[c]]
  | ':' :: ':' :: rest => [] :: splitOnColonColon rest
  | c :: d :: rest =>
    match splitOnColonColon (d :: rest) with
    | [] => [[c]]
    | t :: ts => (c :: t) :: ts

/-- Model of `String.prototype.includes`. -/
def containsSub : List Char → List Char → Bool
  | [], sub => sub.isEmpty
  | c :: rest, sub => startsWithL (c :: rest) sub || containsSub rest sub

/-- Model of `Array.prototype.join` on character lists. -/
def joinWith (sep : List Char) : List (List Char) → List Char
  | [] => []
  | [x] => x
  | x :: y :: xs => x ++ sep ++ joinWith sep (y :: xs)

/-- Model of `Array.prototype.join` on strings. -/
def joinStr (sep : String) (l : List String) : String :=
  ⟨joinWith sep.data (l.map String.data)⟩

/-- The `HostEntry` record from `types/ipc` (optional fields become `Option`). -/
structure HostEntry where
  id : String
  ip : String
  hostnames : List String
  enabled : Bool
  comment : Option String := none
  group : Option String := none
deriving DecidableEq, Repr

/-- Decimal value of a digit string, as computed by JavaScript `Number` on an
all-digit group. -/
def digitsToNat (g : List Char) : Nat :=
  g.foldl (fun n c => 10 * n + (c.toNat - '0'.toNat)) 0

/-- One group of the IPv4 regex `^(\d{1,3}\.){3}\d{1,3}$`: one to three digits. -/
def ipv4Group (g : List Char) : Bool :=
  !g.isEmpty && g.length ≤ 3 && g.all Char.isDigit

/-- Whether the whole string matches the IPv4 regex `^(\d{1,3}\.){3}\d{1,3}$`,
expressed through `split(".")`: exactly four one-to-three-digit groups. -/
def ipv4Shape (l : List Char) : Bool :=
  match splitOnChar '.' l with
  | [a, b, c, d] => ipv4Group a && ipv4Group b && ipv4Group c && ipv4Group d
  | _ => false

/-- Hexadecimal digit as matched by `[0-9a-fA-F]`. -/
def isHexDigit (c : Char) : Bool :=
  c.isDigit || ('a' ≤ c && c ≤ 'f') || ('A' ≤ c && c ≤ 'F')

/-- One group of the full IPv6 regex: one to four hexadecimal digits. -/
def ipv6Group (g : List Char) : Bool :=
  !g.isEmpty && g.length ≤ 4 && g.all isHexDigit

/-- Whether the string matches `^([0-9a-fA-F]{1,4}:){7}[0-9a-fA-F]{1,4}$`,
expressed through `split(":")`: exactly eight hexadecimal groups. -/
def ipv6FullShape (l : List Char) : Bool :=
  (splitOnChar ':' l).length = 8 && (splitOnChar ':' l).all ipv6Group

/-- Model of `HostsParser.isValidIP`. The IPv4 branch returns early with the
value check (each group is nonnegative by construction, so only the upper
bound matters); then the simplified IPv6 regex including the literals `::1`
and `::`; then the compressed check: split on `::`, exactly two parts, and at
most eight nonempty colon-separated segments in total. -/
def isValidIPL (l : List Char) : Bool :=
  if ipv4Shape l then (splitOnChar '.' l).all (fun g => digitsToNat g ≤ 255)
  else if ipv6FullShape l || l = "::1".data || l = "::".data then true
  else if containsSub l "::".data then
    match splitOnColonColon l with
    | [left, right] =>
      ((splitOnChar ':' left).filter (fun s => !s.isEmpty)).length +
        ((splitOnChar ':' right).filter (fun s => !s.isEmpty)).length ≤ 8
    | _ => false
  else false

/-- String-level wrapper of `HostsParser.isValidIP`. -/
def isValidIP (ip : String) : Bool := isValidIPL ip.data

/-- ASCII letter or digit, as matched by `[a-z0-9]` with the `i` flag. -/
def isAlnumCh (c : Char) : Bool :=
  c.isDigit || ('a' ≤ c && c ≤ 'z') || ('A' ≤ c && c ≤ 'Z')

/-- One label of the hostname regex: `[a-z0-9]([a-z0-9-]{0,61}[a-z0-9])?` with
the `i` flag: one to 63 characters, first and last alphanumeric, middle
characters alphanumeric or hyphen. -/
def hostLabel (g : List Char) : Bool :=
  match g with
  | [] => false
  | c :: rest =>
    isAlnumCh c &&
      (match rest.reverse with
       | [] => true
       | lastc :: mid =>
         rest.length ≤ 62 && isAlnumCh lastc &&
           mid.all (fun c => isAlnumCh c || c = '-'))

/-- Model of `HostsParser.isValidHostname`: length bound, then the label regex
expressed through `split(".")`. -/
def isValidHostnameL (l : List Char) : Bool :=
  if l.length > 253 then false
  else (splitOnChar '.' l).all hostLabel

/-- String-level wrapper of `HostsParser.isValidHostname`. -/
def isValidHostname (h : String) : Bool := isValidHostnameL h.data

/-- Trimmed text after the first `#`, per the inline-comment extraction
`/#\s*(.+)$/` followed by `.trim()` in `parseEntryLine`. The regex matches at
the first `#` that has at least one character after it (if the rest after
a `#` is empty the engine moves on to the next `#`); the captured group,
after the callers `.trim()`, is the trimmed remainder. Faithful for inputs
without a newline, which is the only way `parse` calls it. -/
def jsCommentOpt : List Char → Option (List Char)
  | [] => none
  | c :: rest =>
    if c = '#' then
      if rest.isEmpty then jsCommentOpt rest else some (jsTrim rest)
    else jsCommentOpt rest

/-- Model of `HostsParser.parseEntryLine`: split on whitespace runs, need at
least two tokens, the remaining tokens minus empty or `#`-starting ones become
hostnames, the first token must pass `isValidIP`, and the inline comment is
extracted from the whole line. -/
def parseEntryLine (line : List Char) (entryId : Nat) : Option HostEntry :=
  let parts := wsSplit line
  if parts.length < 2 then none
  else
    match parts with
    | [] => none
    | ip :: rest =>
      let hostnames := rest.filter (fun h => !h.isEmpty && !startsWithL h ['#'])
      if !isValidIPL ip then none
      else
        some
          { id := "entry-" ++ toString entryId
            ip := ⟨ip⟩
            hostnames := hostnames.map (⟨·⟩)
            enabled := true
            comment := (jsCommentOpt line).map (⟨·⟩)
            group := none }

/-- Set the `comment` of the last entry of the list (the effect of
`entries.at(-1).comment = c` inside `handleCommentLine`). -/
def setLastComment (c : String) : List HostEntry → List HostEntry
  | [] => []
  | [e] => [{ e with comment := some c }]
  | e :: e2 :: rest => e :: setLastComment c (e2 :: rest)

/-- The loop body of `HostsParser.parse`. `prevRaw` is `lines[i-1]` (`none`
at index zero), `entryId` the counter that the JavaScript code increments with
`entryId++` on every decode attempt, successful or not. A `#` line is first
tried as a disabled entry; on failure `handleCommentLine` attaches the
comment text to the last entry when the previous raw line is nonblank and not
itself a comment line. -/
def parseGo (prevRaw : Option (List Char)) (entryId : Nat) (acc : List HostEntry) :
    List (List Char) → List HostEntry
  | [] => acc
  | raw :: rest =>
    let line := jsTrim raw
    if line.isEmpty then parseGo (some raw) entryId acc rest
    else if startsWithL line ['#'] then
      let commentContent := jsTrim (line.drop 1)
      match parseEntryLine commentContent entryId with
      | some e => parseGo (some raw) (entryId + 1) (acc ++ [{ e with enabled := false }]) rest
      | none =>
        let acc' :=
          match prevRaw with
          | none => acc
          | some p =>
            let pl := jsTrim p
            if !acc.isEmpty && !pl.isEmpty && !startsWithL pl ['#'] then
              let c := jsTrim (line.drop 1)
              if !c.isEmpty then setLastComment ⟨c⟩ acc else acc
            else acc
        parseGo (some raw) (entryId + 1) acc' rest
    else
      match parseEntryLine line entryId with
      | some e => parseGo (some raw) (entryId + 1) (acc ++ [e]) rest
      | none => parseGo (some raw) (entryId + 1) acc rest

/-- Model of `HostsParser.parse`: split the content on newlines and run the
line loop. -/
def parse (content : String) : List HostEntry :=
  parseGo none 0 [] (splitOnChar '\n' content.data)

/-- JavaScript truthiness of the optional `comment` field: present and
nonempty. -/
def commentTruthy : Option String → Bool
  | some c => !c.isEmpty
  | none => false

/-- Model of `HostsParser.formatEntry`: one plain line for an enabled entry
(comment appended inline), one or two `# `-prefixed lines for a disabled
entry (the comment on its own second line). -/
def formatEntry (e : HostEntry) : List String :=
  let hostnameLine := e.ip ++ " " ++ joinStr " " e.hostnames
  if e.enabled then
    if commentTruthy e.comment then [hostnameLine ++ " # " ++ e.comment.getD ""]
    else [hostnameLine]
  else
    ["# " ++ hostnameLine] ++
      (if commentTruthy e.comment then ["# " ++ e.comment.getD ""] else [])

/-- Model of `HostsParser.stringify`, with the impure generation timestamp
`new Date().toISOString()` passed in as `now`. The runtime type guards of the
source (null, non-array, non-object elements) are vacuous in the typed model. -/
def stringify (now : String) (entries : List HostEntry) : String :=
  let headers : List String :=
    ["# Hosts file managed by iHosts", "# Generated at " ++ now, ""]
  joinStr "\n" (headers ++ (entries.map formatEntry).flatten) ++ "\n"

/-- Model of `HostsParser.validateEntry`, returning the error list (the
source returns `{valid: errors.length === 0, errors}`). -/
def validateEntryErrors (e : HostEntry) : List String :=
  (if !isValidIP e.ip then ["Invalid IP address: " ++ e.ip] else []) ++
    (if e.hostnames.isEmpty then ["At least one hostname is required"] else []) ++
    e.hostnames.filterMap
      (fun h => if !isValidHostname h then some ("Invalid hostname: " ++ h) else none)

/-- Model of `HostsFileManager.validateEntriesForWrite`: an empty list is
rejected outright, and otherwise all per-entry validation failures are
aggregated (with one-based entry indices) into a single error. A thrown
`Error` is modelled as `Except.error` of its message. -/
def validateEntriesForWrite (entries : List HostEntry) : Except String Unit :=
  if entries.isEmpty then .error "Cannot save empty hosts file"
  else
    let errs := entries.enum.filterMap fun p =>
      let v := validateEntryErrors p.2
      if v.isEmpty then none
      else some ("Entry " ++ toString (p.1 + 1) ++ ": " ++ joinStr ", " v)
    if errs.isEmpty then .ok ()
    else .error ("Validation failed:\n" ++ joinStr "\n" errs)

/-- Model of `HostsFileManager.writeHosts`: validation runs first and a
validation failure aborts before the permission dialog, the backup and the
file write; on success the serialized content is handed to the write
collaborator. The model returns the content that would be written, so an
`error` result means nothing is written at all. -/
def writeHosts (now : String) (entries : List HostEntry) : Except String String :=
  match validateEntriesForWrite entries with
  | .error msg => .error msg
  | .ok _ => .ok (stringify now entries)

/-- Sorting of the hostname arrays inside `isEntryUnsaved`. The source sorts
copies with `sort((a, b) => a.localeCompare(b))`; the comparator is modelled
as the lexicographic order on strings (a total order, which is all the
equality test depends on). -/
def sortHostnames (l : List String) : List String :=
  l.insertionSort (· ≤ ·)

/-- Model of `useHostsStore.isEntryUnsaved`: an entry is unsaved when no
original entry shares its id, or when `ip`, sorted hostnames (the source
compares `JSON.stringify` of the sorted arrays, an injective encoding, hence
list equality), `enabled`, `comment` or `group` differ. -/
def isEntryUnsaved (originalEntries : List HostEntry) (entry : HostEntry) : Bool :=
  match originalEntries.find? (fun e => e.id == entry.id) with
  | none => true
  | some o =>
    entry.ip != o.ip ||
      sortHostnames entry.hostnames != sortHostnames o.hostnames ||
      entry.enabled != o.enabled ||
      entry.comment != o.comment ||
      entry.group != o.group

/-- A `Partial<HostEntry>` as passed to `updateEntry`: each field either
absent (keep the old value) or present (overwrite). -/
structure HostEntryPatch where
  id : Option String := none
  ip : Option String := none
  hostnames : Option (List String) := none
  enabled : Option Bool := none
  comment : Option (Option String) := none
  group : Option (Option String) := none
deriving DecidableEq, Repr

/-- The object spread `{ ...entry, ...updates }`. -/
def applyPatch (e : HostEntry) (p : HostEntryPatch) : HostEntry :=
  { id := p.id.getD e.id
    ip := p.ip.getD e.ip
    hostnames := p.hostnames.getD e.hostnames
    enabled := p.enabled.getD e.enabled
    comment := p.comment.getD e.comment
    group := p.group.getD e.group }

/-- Model of `useHostsStore.updateEntry` restricted to its effect on the
working entry list (the store then recomputes the filtered projection from
this list; the function is total, so no error can be raised). -/
def updateEntry (id : String) (p : HostEntryPatch) (entries : List HostEntry) :
    List HostEntry :=
  entries.map fun e => if e.id = id then applyPatch e p else e

/-- Model of `useHostsStore.toggleEntry` restricted to its effect on the
working entry list. -/
def toggleEntry (id : String) (entries : List HostEntry) : List HostEntry :=
  entries.map fun e => if e.id = id then { e with enabled := !e.enabled } else e

/-- The structural projection used by the round-trip claims: ip, hostnames as
a set, enabled flag and comment. -/
def entryProj (e : HostEntry) : String × Finset String × Bool × Option String :=
  (e.ip, e.hostnames.toFinset, e.enabled, e.comment)

/-- The concrete entry of the round-trip claims: `10.0.0.5` mapping
`a.test b.test`, enabled, with comment `dev`. -/
def sampleRoundTripEntry : HostEntry :=
  { id := "e", ip := "10.0.0.5", hostnames := ["a.test", "b.test"],
    enabled := true, comment := some "dev" }

/-- The same entry, disabled, as used by claim C2. -/
def sampleDisabledEntry : HostEntry :=
  { sampleRoundTripEntry with enabled := false }

/-- A concrete one-entry store state used by the witness of claim C9. -/
def sampleEntry : HostEntry :=
  { id := "entry-0", ip := "1.1.1.1", hostnames := ["x"], enabled := true }

/-- A concrete invalid entry (bad address, no hostnames) used by the witness
of claim C7. -/
def badEntry : HostEntry :=
  { id := "e1", ip := "999.0.0.1", hostnames := [], enabled := true }

/-- Acceptance shapes for colon-containing literals as described by the
specification of the IP validator: (a) exactly eight groups of one to four
hexadecimal digits, (b) the literals `::1` and `::`, or (c) exactly one `::`
compression marker with at most eight explicit (nonempty) colon-separated
segments in total on its two sides. -/
def specAcceptsIPv6 (l : List Char) : Bool :=
  ipv6FullShape l || l = "::1".data || l = "::".data ||
    (containsSub l "::".data &&
      match splitOnColonColon l with
      | [left, right] =>
        ((splitOnChar ':' left).filter (fun s => !s.isEmpty)).length +
          ((splitOnChar ':' right).filter (fun s => !s.isEmpty)).length ≤ 8
      | _ => false)

/-- Comment part of a strictly well-formed entry line, at the token level:
either absent, or a standalone `#` marker token followed by at least one text
token, where text tokens may carry `#` only as their first character. -/
def strictCommentToks : List (List Char) → Bool
  | [] => true
  | m :: ts =>
    m = ['#'] && !ts.isEmpty && ts.all (fun u => !(u.drop 1).contains '#')

/-- Strictly well-formed entry line: after trimming, the whitespace-separated
tokens are a `#`-free address accepted by the IP validator, at least one
`#`-free hostname token, and an optional strict comment part. This is the
specification grammar `address SP+ hostname (SP+ hostname)* (SP+ "#" SP* text)?`
restricted so that `#` occurs only as the standalone comment marker or at the
start of comment-text tokens. -/
def strictWfLine (l : List Char) : Bool :=
  match wsSplit (jsTrim l) with
  | [] => false
  | addr :: rest =>
    isValidIPL addr && !addr.contains '#' &&
      (let hs := rest.takeWhile (fun u => !u.contains '#')
       !hs.isEmpty && strictCommentToks (rest.drop hs.length))

/-- A nonempty whitespace-free token, as produced by splitting a trimmed
line. -/
def tokGood (t : List Char) : Prop := t ≠ [] ∧ ∀ c ∈ t, isWsChar c = false

/-- Shape invariant satisfied by every entry that `parse` produces from a
strictly well-formed entry line: token-shaped `#`-free address accepted by
the validator, nonempty token-shaped `#`-free hostnames, enabled, and a
comment that is either absent or trimmed, nonempty, newline-free text whose
tokens carry `#` at most as a leading character and whose non-`#`-starting
tokens already occur among the hostnames. These are exactly the facts needed
for one re-parse round trip of the formatted line. -/
def GoodEntry (e : HostEntry) : Prop :=
  tokGood e.ip.data ∧ '#' ∉ e.ip.data ∧ isValidIPL e.ip.data = true ∧
    e.hostnames ≠ [] ∧
    (∀ h ∈ e.hostnames, tokGood h.data ∧ '#' ∉ h.data) ∧
    e.enabled = true ∧
    (e.comment = none ∨ ∃ c : String, e.comment = some c ∧ c.data ≠ [] ∧
      jsTrim c.data = c.data ∧ '\n' ∉ c.data ∧
      ∀ tk ∈ wsSplit c.data, tk ≠ [] ∧ '#' ∉ tk.drop 1 ∧
        (startsWithL tk ['#'] = false → (⟨tk⟩ : String) ∈ e.hostnames))

/-- Projections of the entries a list of comment-free lines produces, with
all identifiers taken at counter value zero (`entryProj` ignores the id, so
this is the counter-independent shape of the parse result). -/
def linesProj : List (List Char) →
    List (String × Finset String × Bool × Option String)
  | [] => []
  | l :: rest =>
    if (jsTrim l).isEmpty then linesProj rest
    else
      match parseEntryLine (jsTrim l) 0 with
      | some e => entryProj e :: linesProj rest
      | none => linesProj rest

/-- A character list is the join of the given tokens, in order, separated by
nonempty whitespace runs, where each token is nonempty and whitespace-free.
This is the inverse description of `split(/\s+/)` on trimmed input. -/
inductive TokJoins : List (List Char) → List Char → Prop
  | single (tok : List Char) : tok ≠ [] → (∀ c ∈ tok, isWsChar c = false) →
      TokJoins [tok] tok
  | cons (tok wsr rest : List Char) (toks : List (List Char)) :
      tok ≠ [] → (∀ c ∈ tok, isWsChar c = false) →
      wsr ≠ [] → (∀ c ∈ wsr, isWsChar c = true) →
      TokJoins toks rest → TokJoins (tok :: toks) (tok ++ wsr ++ rest)

/-! ### Lemmas about the split functions -/

theorem splitOnChar_ne_nil (sep : Char) (l : List Char) : splitOnChar sep l ≠ [] := by
  induction l with
  | nil => simp [splitOnChar]
  | cons c rest ih =>
    simp only [splitOnChar]
    split
    · simp
    · split
      · simp
      · simp

theorem exists_splitOnChar_cons (sep : Char) (l : List Char) :
    ∃ t ts, splitOnChar sep l = t :: ts := by
  cases h : splitOnChar sep l with
  | nil => exact absurd h (splitOnChar_ne_nil sep l)
  | cons t ts => exact ⟨t, ts, rfl⟩

theorem mem_of_mem_splitOnChar {sep : Char} {l t : List Char} {c : Char}
    (ht : t ∈ splitOnChar sep l) (hc : c ∈ t) : c ∈ l := by
  induction l generalizing t with
  | nil =>
    simp only [splitOnChar, List.mem_singleton] at ht
    subst ht
    simp at hc
  | cons d rest ih =>
    simp only [splitOnChar] at ht
    split at ht
    · rcases List.mem_cons.mp ht with h | h
      · subst h; simp at hc
      · exact List.mem_cons_of_mem _ (ih h hc)
    · obtain ⟨t0, ts0, hs⟩ := exists_splitOnChar_cons sep rest
      rw [hs] at ht
      rcases List.mem_cons.mp ht with h | h
      · subst h
        rcases List.mem_cons.mp hc with h | h
        · exact h ▸ List.mem_cons_self _ _
        · exact List.mem_cons_of_mem _ (ih (hs ▸ List.mem_cons_self t0 ts0) h)
      · exact List.mem_cons_of_mem _
          (ih (hs ▸ List.mem_cons_of_mem t0 h) hc)

theorem sep_not_mem_of_mem_splitOnChar {sep : Char} {l t : List Char}
    (ht : t ∈ splitOnChar sep l) : sep ∉ t := by
  induction l generalizing t with
  | nil =>
    simp only [splitOnChar, List.mem_singleton] at ht
    subst ht; simp
  | cons d rest ih =>
    simp only [splitOnChar] at ht
    split at ht
    · rcases List.mem_cons.mp ht with h | h
      · subst h; simp
      · exact ih h
    · next hne =>
      obtain ⟨t0, ts0, hs⟩ := exists_splitOnChar_cons sep rest
      rw [hs] at ht
      rcases List.mem_cons.mp ht with h | h
      · subst h
        intro hmem
        rcases List.mem_cons.mp hmem with h | h
        · exact hne (by simp [h])
        · exact ih (hs ▸ List.mem_cons_self t0 ts0) h
      · exact ih (hs ▸ List.mem_cons_of_mem t0 h)

theorem splitOnChar_of_not_mem {sep : Char} {l : List Char} (h : sep ∉ l) :
    splitOnChar sep l = [l] := by
  induction l with
  | nil => rfl
  | cons d rest ih =>
    have hd : d ≠ sep := fun hd => h (hd ▸ List.mem_cons_self d rest)
    have hrest : sep ∉ rest := fun hr => h (List.mem_cons_of_mem d hr)
    simp only [splitOnChar, if_neg hd, ih hrest]

theorem exists_mem_splitOnChar {sep c : Char} {l : List Char}
    (hc : c ∈ l) (hne : c ≠ sep) : ∃ t ∈ splitOnChar sep l, c ∈ t := by
  induction l with
  | nil => simp at hc
  | cons d rest ih =>
    simp only [splitOnChar]
    rcases List.mem_cons.mp hc with h | h
    · subst h
      rw [if_neg hne]
      obtain ⟨t0, ts0, hs⟩ := exists_splitOnChar_cons sep rest
      rw [hs]
      exact ⟨c :: t0, List.mem_cons_self _ _, List.mem_cons_self _ _⟩
    · obtain ⟨t, htmem, hct⟩ := ih h
      split
      · exact ⟨t, List.mem_cons_of_mem _ htmem, hct⟩
      · obtain ⟨t0, ts0, hs⟩ := exists_splitOnChar_cons sep rest
        rw [hs]
        rw [hs] at htmem
        rcases List.mem_cons.mp htmem with h1 | h1
        · exact ⟨d :: t0, List.mem_cons_self _ _,
            h1 ▸ List.mem_cons_of_mem d hct⟩
        · exact ⟨t, List.mem_cons_of_mem _ h1, hct⟩

theorem mem_of_containsSub_cons {l sub : List Char} {c : Char}
    (h : containsSub l (c :: sub) = true) : c ∈ l := by
  induction l with
  | nil => simp [containsSub, List.isEmpty] at h
  | cons x rest ih =>
    simp only [containsSub, Bool.or_eq_true] at h
    rcases h with h | h
    · simp only [startsWithL, Bool.and_eq_true, decide_eq_true_eq] at h
      exact h.1 ▸ List.mem_cons_self _ _
    · exact List.mem_cons_of_mem _ (ih h)

/-! ### The IP validator on dotted-decimal strings (claim C4) -/

theorem ipv4Group_true_iff {g : List Char} :
    ipv4Group g = true ↔ g ≠ [] ∧ g.length ≤ 3 ∧ g.all Char.isDigit = true := by
  simp only [ipv4Group, Bool.and_eq_true, Bool.not_eq_true',
    List.isEmpty_eq_false, decide_eq_true_eq]
  tauto

theorem ipv4Group_eq_false_of_mem {g : List Char} {c : Char}
    (hc : c ∈ g) (hd : c.isDigit = false) : ipv4Group g = false := by
  cases h : ipv4Group g with
  | false => rfl
  | true =>
    have := (ipv4Group_true_iff.mp h).2.2
    rw [List.all_eq_true] at this
    rw [this c hc] at hd
    exact absurd hd (by simp)

theorem ipv4Shape_eq_false_of_mem {l : List Char} {c : Char}
    (hc : c ∈ l) (hd : c.isDigit = false) (hs : c ≠ '.') :
    ipv4Shape l = false := by
  rw [ipv4Shape]
  split
  · next a b g d heq =>
    obtain ⟨t, htmem, hct⟩ := exists_mem_splitOnChar hc hs
    rw [heq] at htmem
    have hgf : ipv4Group t = false := ipv4Group_eq_false_of_mem hct hd
    simp only [List.mem_cons, List.not_mem_nil, or_false] at htmem
    rcases htmem with h | h | h | h <;> subst h <;> simp [hgf]
  · rfl

/-- Colon characters cannot occur in a digits-and-dots string, so all IPv6
branches of the validator are off. -/
theorem no_colon_branches {l : List Char} (h : ':' ∉ l) :
    ipv6FullShape l = false ∧ l ≠ "::1".data ∧ l ≠ "::".data ∧
      containsSub l "::".data = false := by
  refine ⟨?_, ?_, ?_, ?_⟩
  · simp only [ipv6FullShape, splitOnChar_of_not_mem h]
    simp
  · intro hl; exact h (hl ▸ (by decide : ':' ∈ "::1".data))
  · intro hl; exact h (hl ▸ (by decide : ':' ∈ "::".data))
  · cases hc : containsSub l "::".data with
    | false => rfl
    | true => exact absurd (mem_of_containsSub_cons hc) h

/-- Claim C4 (amended): on strings made of digits and dots, the validator
accepts exactly the strings with four dot-separated groups of one to three
digits whose values are at most 255; in particular `127.0.0.1` is accepted
and `256.0.0.1` is rejected. The claim as frozen omits the one-to-three-digit
bound on each group, which the counterexample below refutes. -/
theorem ipv4_validation :
    (∀ s : String, (∀ c ∈ s.data, c.isDigit = true ∨ c = '.') →
      (isValidIP s = true ↔
        ∃ a b c d, splitOnChar '.' s.data = [a, b, c, d] ∧
          ∀ g ∈ [a, b, c, d], g ≠ [] ∧ g.length ≤ 3 ∧ digitsToNat g ≤ 255)) ∧
    isValidIP "127.0.0.1" = true ∧ isValidIP "256.0.0.1" = false := by
  refine ⟨?_, by decide, by decide⟩
  intro s hchar
  have hcolon : ':' ∉ s.data := by
    intro hc
    rcases hchar ':' hc with h | h <;> simp at h
  obtain ⟨h6, hne1, hne2, hcon⟩ := no_colon_branches hcolon
  have hdig : ∀ g ∈ splitOnChar '.' s.data, g.all Char.isDigit = true := by
    intro g hmem
    rw [List.all_eq_true]
    intro ch hch
    rcases hchar ch (mem_of_mem_splitOnChar hmem hch) with h | h
    · exact h
    · exact absurd (h ▸ hch) (sep_not_mem_of_mem_splitOnChar hmem)
  cases hshape : ipv4Shape s.data with
  | true =>
    have hval : isValidIP s =
        (splitOnChar '.' s.data).all (fun g => digitsToNat g ≤ 255) := by
      rw [isValidIP, isValidIPL, if_pos hshape]
    rw [ipv4Shape] at hshape
    split at hshape
    · next a b c d heq =>
      simp only [Bool.and_eq_true] at hshape
      obtain ⟨⟨⟨ha, hb⟩, hc⟩, hd⟩ := hshape
      rw [hval, heq]
      simp only [List.all_cons, List.all_nil, Bool.and_eq_true,
        decide_eq_true_eq, and_true]
      constructor
      · intro hall
        refine ⟨a, b, c, d, rfl, ?_⟩
        intro g hg
        simp only [List.mem_cons, List.not_mem_nil, or_false] at hg
        rcases hg with h | h | h | h <;> subst h <;>
          [exact ⟨(ipv4Group_true_iff.mp ha).1, (ipv4Group_true_iff.mp ha).2.1, hall.1⟩;
           exact ⟨(ipv4Group_true_iff.mp hb).1, (ipv4Group_true_iff.mp hb).2.1, hall.2.1⟩;
           exact ⟨(ipv4Group_true_iff.mp hc).1, (ipv4Group_true_iff.mp hc).2.1, hall.2.2.1⟩;
           exact ⟨(ipv4Group_true_iff.mp hd).1, (ipv4Group_true_iff.mp hd).2.1, hall.2.2.2⟩]
      · rintro ⟨a', b', c', d', heq', hprops⟩
        have hprops' : ∀ g ∈ [a, b, c, d],
            g ≠ [] ∧ g.length ≤ 3 ∧ digitsToNat g ≤ 255 := heq'.symm ▸ hprops
        exact ⟨(hprops' a (by simp)).2.2, (hprops' b (by simp)).2.2,
          (hprops' c (by simp)).2.2, (hprops' d (by simp)).2.2⟩
    · simp at hshape
  | false =>
    have hval : isValidIP s = false := by
      rw [isValidIP, isValidIPL]
      split_ifs with h1 h2 h3
      · exact absurd h1 (by simp [hshape])
      · exact absurd h2 (by simp [h6, hne1, hne2])
      · exact absurd h3 (by simp [hcon])
      · rfl
    rw [hval]
    constructor
    · intro h; exact absurd h (by simp)
    · rintro ⟨a, b, c, d, heq, hprops⟩
      exfalso
      have : ipv4Shape s.data = true := by
        rw [ipv4Shape, heq]
        have hgroup : ∀ g ∈ [a, b, c, d], ipv4Group g = true := by
          intro g hg
          obtain ⟨hne, hlen, _⟩ := hprops g hg
          exact ipv4Group_true_iff.mpr ⟨hne, hlen, hdig g (heq ▸ hg)⟩
        show (ipv4Group a && ipv4Group b && ipv4Group c && ipv4Group d) = true
        rw [hgroup a (by simp), hgroup b (by simp), hgroup c (by simp),
          hgroup d (by simp)]
        rfl
      rw [this] at hshape
      exact absurd hshape (by simp)

/-- Counterexample to claim C4 as frozen: `0000.0.0.1` consists of exactly
four dot-separated decimal groups, each with numeric value in `[0,255]`, yet
the validator rejects it, because its regex caps each group at three digits. -/
theorem ipv4_validation_counterexample :
    (∃ a b c d, splitOnChar '.' "0000.0.0.1".data = [a, b, c, d] ∧
      ∀ g ∈ [a, b, c, d], g ≠ [] ∧ g.all Char.isDigit = true ∧
        digitsToNat g ≤ 255) ∧
    isValidIP "0000.0.0.1" = false := by
  refine ⟨⟨['0','0','0','0'], ['0'], ['0'], ['1'], by decide, by decide⟩, by decide⟩

/-- Witness for claim C4: the characterization applied to `127.0.0.1`. -/
theorem ipv4_validation_witness :
    (∀ c ∈ "127.0.0.1".data, c.isDigit = true ∨ c = '.') ∧
      isValidIP "127.0.0.1" = true := by
  refine ⟨by decide, ?_⟩
  exact (ipv4_validation.1 "127.0.0.1" (by decide)).mpr
    ⟨['1','2','7'], ['0'], ['0'], ['1'], by decide, by decide⟩

/-! ### The IP validator on colon-containing strings (claims C5 and C10) -/

/-- Claim C5: on a colon-containing literal the validator accepts exactly the
shapes the specification lists: the full eight-hex-group form, the literals
`::1` and `::`, or exactly one `::` compression marker with at most eight
explicit (nonempty) colon-separated segments in total on both sides, where
the explicit segments are counted exactly as the code counts them (their
characters are not further constrained, see claim C10). -/
theorem ipv6_validation (s : String) (hc : ':' ∈ s.data) :
    isValidIP s = true ↔ specAcceptsIPv6 s.data = true := by
  have hshape : ipv4Shape s.data = false :=
    ipv4Shape_eq_false_of_mem hc (by decide) (by decide)
  rw [isValidIP, isValidIPL, specAcceptsIPv6]
  rw [if_neg (by simp [hshape])]
  by_cases h1 : (ipv6FullShape s.data || decide (s.data = "::1".data) ||
      decide (s.data = "::".data)) = true
  · rw [if_pos h1, h1]
    simp
  · rw [if_neg h1]
    rw [Bool.or_eq_true, Bool.or_eq_true] at h1
    push_neg at h1
    simp only [Bool.not_eq_true] at h1
    obtain ⟨⟨hf, he1⟩, he2⟩ := h1
    rw [hf, he1, he2]
    simp only [Bool.false_or]
    by_cases h2 : containsSub s.data "::".data = true
    · rw [if_pos h2, h2, Bool.true_and]
    · rw [if_neg h2]
      simp only [Bool.not_eq_true] at h2
      rw [h2]
      simp

/-- Witness for claim C5: the characterization applied to `2001:db8::1`. -/
theorem ipv6_validation_witness :
    ':' ∈ "2001:db8::1".data ∧ isValidIP "2001:db8::1" = true := by
  refine ⟨by decide, ?_⟩
  exact (ipv6_validation "2001:db8::1" (by decide)).mpr (by decide)

/-- Claim C10: the compressed-form branch of the validator accepts any string
with exactly one `::` marker and at most eight nonempty colon-separated
segments in total, regardless of what characters the segments contain. -/
theorem compressed_ipv6_lenient (s : String) (a b : List Char)
    (h1 : ipv6FullShape s.data = false) (h2 : s ≠ "::1") (h3 : s ≠ "::")
    (h4 : containsSub s.data "::".data = true)
    (h5 : splitOnColonColon s.data = [a, b])
    (h6 : ((splitOnChar ':' a).filter (fun x => !x.isEmpty)).length +
        ((splitOnChar ':' b).filter (fun x => !x.isEmpty)).length ≤ 8) :
    isValidIP s = true := by
  have hcolon : ':' ∈ s.data := mem_of_containsSub_cons h4
  have hshape : ipv4Shape s.data = false :=
    ipv4Shape_eq_false_of_mem hcolon (by decide) (by decide)
  have hd2 : s.data ≠ "::1".data := fun h => h2 (by
    cases s with | mk d => exact congrArg String.mk h)
  have hd3 : s.data ≠ "::".data := fun h => h3 (by
    cases s with | mk d => exact congrArg String.mk h)
  rw [isValidIP, isValidIPL]
  rw [if_neg (by simp [hshape])]
  rw [if_neg (by simp [h1, hd2, hd3])]
  rw [if_pos h4, h5]
  simpa using h6

/-- Witness for claim C10: `xyz::abc` is accepted even though neither side is
a hexadecimal group. -/
theorem compressed_ipv6_lenient_witness :
    ipv6FullShape "xyz::abc".data = false ∧ "xyz::abc" ≠ "::1" ∧
      "xyz::abc" ≠ "::" ∧ containsSub "xyz::abc".data "::".data = true ∧
      splitOnColonColon "xyz::abc".data = ["xyz".data, "abc".data] ∧
      isValidIP "xyz::abc" = true := by
  refine ⟨by decide, by decide, by decide, by decide, by decide, ?_⟩
  exact compressed_ipv6_lenient "xyz::abc" "xyz".data "abc".data
    (by decide) (by decide) (by decide) (by decide) (by decide) (by decide)

/-! ### Trimming and tokenization lemmas -/

theorem trimL_eq_self_iff {l : List Char} :
    trimL l = l ↔ ∀ h ∈ l.head?, isWsChar h = false := by
  rw [trimL, List.dropWhile_eq_self_iff]
  cases l with
  | nil => simp
  | cons c rest =>
    simp only [List.head?_cons, Option.mem_def, Option.some.injEq]
    constructor
    · intro h x hx
      subst hx
      simpa using h (by simp)
    · intro h hl
      simp [h c rfl]

theorem jsTrim_eq_self_iff {l : List Char} :
    jsTrim l = l ↔
      (∀ h ∈ l.head?, isWsChar h = false) ∧
        (∀ h ∈ l.getLast?, isWsChar h = false) := by
  constructor
  · intro h
    have hsub1 : List.Sublist (trimL l) l := List.dropWhile_sublist isWsChar
    have hsub2 : List.Sublist (trimL ((trimL l).reverse)) ((trimL l).reverse) :=
      List.dropWhile_sublist isWsChar
    have hlen0 : (jsTrim l).length = (trimL ((trimL l).reverse)).length := by
      rw [jsTrim]
      simp [trimL]
    have hlen : (jsTrim l).length = l.length := by rw [h]
    have hlen1 : (trimL l).length ≤ l.length := hsub1.length_le
    have hlen2 : (trimL ((trimL l).reverse)).length ≤ (trimL l).length := by
      have := hsub2.length_le
      simpa using this
    have hT : trimL l = l := hsub1.eq_of_length (by omega)
    have hR : trimL l.reverse = l.reverse := by
      have hsub3 : List.Sublist (trimL l.reverse) l.reverse :=
        List.dropWhile_sublist isWsChar
      apply hsub3.eq_of_length
      have heq2 : (trimL (l.reverse)).length =
          (trimL ((trimL l).reverse)).length := by rw [hT]
      have hrl : l.reverse.length = l.length := List.length_reverse l
      omega
    refine ⟨trimL_eq_self_iff.mp hT, ?_⟩
    have := trimL_eq_self_iff.mp hR
    simpa [List.head?_reverse] using this
  · rintro ⟨hh, hl⟩
    have hT : trimL l = l := trimL_eq_self_iff.mpr hh
    have hR : trimL l.reverse = l.reverse :=
      trimL_eq_self_iff.mpr (by simpa [List.head?_reverse] using hl)
    rw [jsTrim, show l.dropWhile isWsChar = l from hT,
      show l.reverse.dropWhile isWsChar = l.reverse from hR,
      List.reverse_reverse]

theorem wsSplit_ne_nil (l : List Char) : wsSplit l ≠ [] := by
  induction l with
  | nil => simp [wsSplit]
  | cons c rest ih =>
    cases rest with
    | nil =>
      rw [wsSplit]
      split <;> simp
    | cons d rest2 =>
      rw [wsSplit]
      split
      · split
        · exact ih
        · simp
      · split <;> simp

theorem wsSplit_head_tok {c : Char} {rest : List Char}
    (hc : isWsChar c = false) :
    ∃ t0 ts, wsSplit (c :: rest) = (c :: t0) :: ts := by
  cases rest with
  | nil => exact ⟨[], [], by simp [wsSplit, hc]⟩
  | cons d rest2 =>
    cases hw : wsSplit (d :: rest2) with
    | nil => exact absurd hw (wsSplit_ne_nil _)
    | cons t0 ts => exact ⟨t0, ts, by simp [wsSplit, hc, hw]⟩

theorem wsSplit_tok_chars :
    ∀ l : List Char, ∀ tok ∈ wsSplit l, ∀ c ∈ tok, isWsChar c = false := by
  intro l
  induction l with
  | nil =>
    intro tok h c hc
    simp only [wsSplit, List.mem_singleton] at h
    subst h
    simp at hc
  | cons a rest ih =>
    cases rest with
    | nil =>
      intro tok h c hc
      by_cases ha : isWsChar a
      · rw [show wsSplit [a] = [[], []] by simp [wsSplit, ha]] at h
        have htok : tok = [] := by
          rcases List.mem_cons.mp h with h1 | h1
          · exact h1
          · simpa using h1
        subst htok
        simp at hc
      · simp only [wsSplit, if_neg ha, List.mem_singleton] at h
        subst h
        simp only [List.mem_singleton] at hc
        subst hc
        simpa using ha
    | cons d rest2 =>
      intro tok h c hc
      by_cases ha : isWsChar a
      · by_cases hd : isWsChar d
        · rw [show wsSplit (a :: d :: rest2) = wsSplit (d :: rest2) by
            simp [wsSplit, ha, hd]] at h
          exact ih tok h c hc
        · rw [show wsSplit (a :: d :: rest2) = [] :: wsSplit (d :: rest2) by
            simp [wsSplit, ha, hd]] at h
          rcases List.mem_cons.mp h with h | h
          · subst h; simp at hc
          · exact ih tok h c hc
      · cases hw : wsSplit (d :: rest2) with
        | nil => exact absurd hw (wsSplit_ne_nil _)
        | cons t0 ts =>
          rw [show wsSplit (a :: d :: rest2) = (a :: t0) :: ts by
            simp [wsSplit, ha, hw]] at h
          rcases List.mem_cons.mp h with h | h
          · subst h
            rcases List.mem_cons.mp hc with h | h
            · subst h; simpa using ha
            · exact ih t0 (hw ▸ List.mem_cons_self t0 ts) c h
          · exact ih tok (hw ▸ List.mem_cons_of_mem t0 h) c hc

theorem wsSplit_tail_ne_nil :
    ∀ l : List Char, (∀ h ∈ l.getLast?, isWsChar h = false) →
      ∀ tok ∈ (wsSplit l).tail, tok ≠ [] := by
  intro l
  induction l with
  | nil =>
    intro _ tok h
    simp [wsSplit] at h
  | cons a rest ih =>
    cases rest with
    | nil =>
      intro hlast tok h
      have ha : isWsChar a = false := by simpa using hlast a (by simp)
      simp [wsSplit, ha] at h
    | cons d rest2 =>
      intro hlast tok h
      have hlast' : ∀ h ∈ (d :: rest2).getLast?, isWsChar h = false := by
        intro x hx
        exact hlast x (by rw [List.getLast?_cons_cons]; exact hx)
      by_cases ha : isWsChar a
      · by_cases hd : isWsChar d
        · rw [show wsSplit (a :: d :: rest2) = wsSplit (d :: rest2) by
            simp [wsSplit, ha, hd]] at h
          exact ih hlast' tok h
        · rw [show wsSplit (a :: d :: rest2) = [] :: wsSplit (d :: rest2) by
            simp [wsSplit, ha, hd]] at h
          simp only [List.tail_cons] at h
          have hd' : isWsChar d = false := by simpa using hd
          obtain ⟨t0, ts, hw⟩ := wsSplit_head_tok hd'
          rw [hw] at h
          rcases List.mem_cons.mp h with h | h
          · subst h; simp
          · exact ih hlast' tok (by rw [hw]; exact h)
      · cases hw : wsSplit (d :: rest2) with
        | nil => exact absurd hw (wsSplit_ne_nil _)
        | cons t0 ts =>
          rw [show wsSplit (a :: d :: rest2) = (a :: t0) :: ts by
            simp [wsSplit, ha, hw]] at h
          simp only [List.tail_cons] at h
          exact ih hlast' tok (by rw [hw, List.tail_cons]; exact h)

/-- All tokens of a trimmed nonempty line are nonempty (this is why the
truthiness guard in the hostname filter of `parseEntryLine` is redundant for
the pre-trimmed lines the parser feeds it). -/
theorem wsSplit_toks_ne_nil {l : List Char} (ht : jsTrim l = l) (hne : l ≠ []) :
    ∀ tok ∈ wsSplit l, tok ≠ [] := by
  obtain ⟨hh, hl⟩ := jsTrim_eq_self_iff.mp ht
  cases l with
  | nil => exact absurd rfl hne
  | cons c rest =>
    have hc : isWsChar c = false := by simpa using hh c (by simp)
    obtain ⟨t0, ts, hw⟩ := wsSplit_head_tok hc
    intro tok hmem
    rw [hw] at hmem
    rcases List.mem_cons.mp hmem with h | h
    · subst h; simp
    · exact wsSplit_tail_ne_nil (c :: rest) hl tok (by rw [hw]; exact h)

/-! ### The entry-line decoder (claim C6) -/

/-- Claim C6: on a pre-trimmed line, the decoder returns `null` when there
are fewer than two whitespace-separated tokens or when the first token fails
the IP validator; otherwise it produces an enabled entry whose ip is the
first token, whose hostnames are exactly the remaining tokens except those
beginning with `#`, and whose comment is the trimmed trailing text after the
first `#` that has any text after it (`jsCommentOpt`), when present. The
newline hypothesis records that the comment-regex model is faithful only for
single lines. -/
theorem parseEntryLine_spec (line : List Char) (n : Nat)
    (ht : jsTrim line = line) (hn : '\n' ∉ line) :
    ((wsSplit line).length < 2 → parseEntryLine line n = none) ∧
    (∀ ip rest, wsSplit line = ip :: rest → isValidIPL ip = false →
        parseEntryLine line n = none) ∧
    (∀ ip rest, wsSplit line = ip :: rest → rest ≠ [] → isValidIPL ip = true →
        parseEntryLine line n = some
          { id := "entry-" ++ toString n, ip := ⟨ip⟩,
            hostnames := (rest.filter fun h => !startsWithL h ['#']).map (⟨·⟩),
            enabled := true,
            comment := (jsCommentOpt line).map (⟨·⟩), group := none }) := by
  refine ⟨?_, ?_, ?_⟩
  · intro hlen
    simp only [parseEntryLine]
    rw [if_pos hlen]
  · intro ip rest heq hbad
    simp only [parseEntryLine]
    split
    · rfl
    · rw [heq]
      simp only [hbad, Bool.not_false, if_pos]
  · intro ip rest heq hrest hgood
    have hlen : ¬ (wsSplit line).length < 2 := by
      rw [heq]
      cases rest with
      | nil => exact absurd rfl hrest
      | cons r rs => simp only [List.length_cons]; omega
    have hlne : line ≠ [] := by
      intro h
      subst h
      simp only [wsSplit] at heq
      obtain ⟨rfl, h2⟩ := by simpa using heq
      exact hrest h2
    have hfilter : rest.filter (fun h => !h.isEmpty && !startsWithL h ['#']) =
        rest.filter (fun h => !startsWithL h ['#']) := by
      apply List.filter_congr
      intro x hx
      have hxne : x ≠ [] := wsSplit_toks_ne_nil ht hlne x
        (heq ▸ List.mem_cons_of_mem ip hx)
      simp [hxne]
    simp only [parseEntryLine]
    rw [if_neg hlen, heq]
    simp only [hgood, Bool.not_true, Bool.false_eq_true, if_neg, hfilter]
    simp

/-- Witness for claim C6 at a concrete pre-trimmed line. -/
theorem parseEntryLine_spec_witness :
    jsTrim "1.2.3.4 a.test #x dev".data = "1.2.3.4 a.test #x dev".data ∧
    '\n' ∉ "1.2.3.4 a.test #x dev".data ∧
    parseEntryLine "1.2.3.4 a.test #x dev".data 5 = some
      { id := "entry-5", ip := "1.2.3.4", hostnames := ["a.test", "dev"],
        enabled := true, comment := some "x dev", group := none } := by
  refine ⟨by decide, by decide, ?_⟩
  have h := (parseEntryLine_spec "1.2.3.4 a.test #x dev".data 5
      (by decide) (by decide)).2.2
    "1.2.3.4".data ["a.test".data, "#x".data, "dev".data]
    (by decide) (by decide) (by decide)
  rw [h]
  decide

/-! ### Disabled-entry round trip (claim C2) -/

/-- Counterexample to claim C2: stringifying the disabled entry does produce
the two expected comment lines, but re-parsing them yields an entry whose
comment is absent, not `dev`: `handleCommentLine` never attaches a comment
line to an entry whose preceding line is itself a comment line. -/
theorem disabled_comment_lost :
    formatEntry sampleDisabledEntry = ["# 10.0.0.5 a.test b.test", "# dev"] ∧
    (parse "# 10.0.0.5 a.test b.test\n# dev").map (fun e => e.comment) = [none] ∧
    ¬ ((parse "# 10.0.0.5 a.test b.test\n# dev").map (fun e => e.comment) =
        [some "dev"]) := by
  refine ⟨by decide, by decide, by decide⟩

/-- Claim C2 (amended): stringify produces the two comment lines, and
re-parsing them recovers one entry with `enabled = false` and the same ip and
hostnames, but with no comment. -/
theorem disabled_roundtrip_amended :
    formatEntry sampleDisabledEntry = ["# 10.0.0.5 a.test b.test", "# dev"] ∧
    (parse "# 10.0.0.5 a.test b.test\n# dev").map
        (fun e => (e.ip, e.hostnames, e.enabled, e.comment)) =
      [("10.0.0.5", ["a.test", "b.test"], false, none)] := by
  refine ⟨by decide, by decide⟩

/-! ### Unsaved-change detection (claim C3) -/

theorem sortHostnames_eq_iff_perm (l₁ l₂ : List String) :
    sortHostnames l₁ = sortHostnames l₂ ↔ l₁.Perm l₂ := by
  constructor
  · intro h
    have p1 : (sortHostnames l₁).Perm l₁ := List.perm_insertionSort _ l₁
    have p2 : (sortHostnames l₂).Perm l₂ := List.perm_insertionSort _ l₂
    rw [← h] at p2
    exact p1.symm.trans p2
  · intro h
    have hperm : (sortHostnames l₁).Perm (sortHostnames l₂) := by
      have p1 : (sortHostnames l₁).Perm l₁ := List.perm_insertionSort _ l₁
      have p2 : (sortHostnames l₂).Perm l₂ := List.perm_insertionSort _ l₂
      exact p1.trans (h.trans p2.symm)
    exact List.eq_of_perm_of_sorted hperm
      (List.sorted_insertionSort _ l₁) (List.sorted_insertionSort _ l₂)

/-- Claim C3: an entry is unsaved exactly when no original entry has its id,
or when one of `ip`, `enabled`, `comment`, `group` differs from the original
entry with that id, or the hostname lists are not order-independently equal
(the sorted-sequence comparison of the code coincides with permutation
equivalence). In particular a mere reordering of hostnames is not unsaved and
an added hostname is. -/
theorem entry_unsaved_iff (orig : List HostEntry) (e : HostEntry) :
    isEntryUnsaved orig e = true ↔
      (∀ o ∈ orig, o.id ≠ e.id) ∨
      ∃ o, orig.find? (fun x => x.id == e.id) = some o ∧
        (e.ip ≠ o.ip ∨ ¬ e.hostnames.Perm o.hostnames ∨
          e.enabled ≠ o.enabled ∨ e.comment ≠ o.comment ∨ e.group ≠ o.group) := by
  rw [isEntryUnsaved]
  cases hf : orig.find? (fun x => x.id == e.id) with
  | none =>
    simp only [true_iff]
    left
    intro o ho
    have := List.find?_eq_none.mp hf o ho
    simpa using this
  | some o =>
    have hmem : o ∈ orig := List.mem_of_find?_eq_some hf
    have hid : o.id = e.id := by
      have := List.find?_some hf
      simpa using this
    constructor
    · intro h
      right
      refine ⟨o, rfl, ?_⟩
      simp only [Bool.or_eq_true, bne_iff_ne, ne_eq] at h
      rcases h with ((((h | h) | h) | h) | h)
      · exact Or.inl h
      · exact Or.inr (Or.inl
          (fun hp => h ((sortHostnames_eq_iff_perm _ _).mpr hp)))
      · exact Or.inr (Or.inr (Or.inl h))
      · exact Or.inr (Or.inr (Or.inr (Or.inl h)))
      · exact Or.inr (Or.inr (Or.inr (Or.inr h)))
    · intro h
      rcases h with h | ⟨o', ho', hprops⟩
      · exact absurd hid (h o hmem)
      · obtain rfl : o = o' := by simpa using ho'
        simp only [Bool.or_eq_true, bne_iff_ne, ne_eq]
        rcases hprops with h | h | h | h | h
        · exact Or.inl (Or.inl (Or.inl (Or.inl h)))
        · exact Or.inl (Or.inl (Or.inl (Or.inr
            (fun hs => h ((sortHostnames_eq_iff_perm _ _).mp hs)))))
        · exact Or.inl (Or.inl (Or.inr h))
        · exact Or.inl (Or.inr h)
        · exact Or.inr h

/-! ### Unknown-id mutations are no-ops (claim C9) -/

theorem map_if_id_of_not_mem {entries : List HostEntry} {id : String}
    (f : HostEntry → HostEntry) (h : ∀ e ∈ entries, e.id ≠ id) :
    (entries.map fun e => if e.id = id then f e else e) = entries := by
  induction entries with
  | nil => rfl
  | cons e rest ih =>
    rw [List.map_cons, if_neg (h e (List.mem_cons_self e rest)),
      ih (fun x hx => h x (List.mem_cons_of_mem e hx))]

/-- Claim C9: `updateEntry` and `toggleEntry` on an id that matches no entry
of the working list leave the list unchanged (and, being total functions,
raise no error). -/
theorem update_toggle_unknown_id (entries : List HostEntry) (id : String)
    (p : HostEntryPatch) (h : ∀ e ∈ entries, e.id ≠ id) :
    updateEntry id p entries = entries ∧ toggleEntry id entries = entries :=
  ⟨map_if_id_of_not_mem _ h, map_if_id_of_not_mem _ h⟩

/-- Witness for claim C9 at a concrete store state and unknown id. -/
theorem update_toggle_unknown_id_witness :
    (∀ e ∈ [sampleEntry], e.id ≠ "missing") ∧
    updateEntry "missing" { ip := some "2.2.2.2" } [sampleEntry] = [sampleEntry] ∧
    toggleEntry "missing" [sampleEntry] = [sampleEntry] := by
  have h := update_toggle_unknown_id [sampleEntry] "missing"
    { ip := some "2.2.2.2" } (by decide)
  exact ⟨by decide, h.1, h.2⟩

/-! ### Write-time validation (claim C7) -/

/-- Claim C7: writing an empty entry list fails before anything is written,
and a nonempty list containing any invalid entry fails with a single
aggregated message enumerating every offending entry (by one-based index)
with its reasons; an `error` result means the serialized content is never
produced, so nothing is partially applied. -/
theorem writeHosts_validation :
    (∀ now, writeHosts now [] = Except.error "Cannot save empty hosts file") ∧
    (∀ now entries, entries ≠ [] →
      (∃ e ∈ entries, validateEntryErrors e ≠ []) →
      writeHosts now entries = Except.error ("Validation failed:\n" ++ joinStr "\n"
        (entries.enum.filterMap fun p =>
          if (validateEntryErrors p.2).isEmpty then none
          else some ("Entry " ++ toString (p.1 + 1) ++ ": " ++
            joinStr ", " (validateEntryErrors p.2))))) := by
  constructor
  · intro now; rfl
  · rintro now entries hne ⟨e, hmem, herr⟩
    have herrs : (entries.enum.filterMap fun p =>
        if (validateEntryErrors p.2).isEmpty then none
        else some ("Entry " ++ toString (p.1 + 1) ++ ": " ++
          joinStr ", " (validateEntryErrors p.2))) ≠ [] := by
      intro hnil
      rw [List.filterMap_eq_nil_iff] at hnil
      have hmem' : e ∈ entries.enum.map Prod.snd := by
        rw [List.enum_map_snd]; exact hmem
      obtain ⟨q, hq, hqe⟩ := List.mem_map.mp hmem'
      have := hnil q hq
      rw [hqe] at this
      split at this
      · next hemp => exact herr (List.isEmpty_iff.mp hemp)
      · exact absurd this (by simp)
    simp only [writeHosts, validateEntriesForWrite]
    rw [if_neg (by simp [hne]), if_neg (by simpa using herrs)]

/-- Witness for claim C7 at a concrete invalid entry list. -/
theorem writeHosts_validation_witness :
    ([badEntry] ≠ []) ∧
    writeHosts "T" [badEntry] =
      Except.error
        "Validation failed:\nEntry 1: Invalid IP address: 999.0.0.1, At least one hostname is required" := by
  refine ⟨by simp, ?_⟩
  have h := writeHosts_validation.2 "T" [badEntry] (by simp)
    ⟨badEntry, by simp, by decide⟩
  rw [h]
  exact congrArg Except.error (by decide)

/-! ### Parse-time identifier assignment (claim C8) -/

theorem setLastComment_map_id (c : String) (l : List HostEntry) :
    (setLastComment c l).map (fun e => e.id) = l.map (fun e => e.id) := by
  induction l with
  | nil => rfl
  | cons e rest ih =>
    cases rest with
    | nil => rfl
    | cons e2 rest2 => simp [setLastComment, ih]

theorem parseEntryLine_id {line : List Char} {n : Nat} {e : HostEntry}
    (h : parseEntryLine line n = some e) : e.id = "entry-" ++ toString n := by
  simp only [parseEntryLine] at h
  split at h
  · exact absurd h (by simp)
  · split at h
    · exact absurd h (by simp)
    · split at h
      · exact absurd h (by simp)
      · injection h with h
        rw [← h]

theorem parseGo_ids (lines : List (List Char)) :
    ∀ prev n acc (ns : List Nat),
      acc.map (fun e => e.id) = ns.map (fun m => "entry-" ++ toString m) →
      ns.Pairwise (· < ·) → (∀ m ∈ ns, m < n) →
      ∃ ns' : List Nat, (parseGo prev n acc lines).map (fun e => e.id) =
          ns'.map (fun m => "entry-" ++ toString m) ∧ ns'.Pairwise (· < ·) := by
  induction lines with
  | nil => exact fun prev n acc ns h1 h2 _ => ⟨ns, h1, h2⟩
  | cons raw rest ih =>
    intro prev n acc ns h1 h2 h3
    have hsnoc : ∀ e : HostEntry, e.id = "entry-" ++ toString n →
        (acc ++ [e]).map (fun x => x.id) =
          (ns ++ [n]).map (fun m => "entry-" ++ toString m) := by
      intro e he
      rw [List.map_append, List.map_append, h1]
      simp [he]
    have hpw : (ns ++ [n]).Pairwise (· < ·) := by
      rw [List.pairwise_append]
      refine ⟨h2, by simp, ?_⟩
      intro a ha b hb
      simp only [List.mem_singleton] at hb
      subst hb
      exact h3 a ha
    have hbound : ∀ m ∈ ns ++ [n], m < n + 1 := by
      intro m hm
      rcases List.mem_append.mp hm with h | h
      · exact Nat.lt_succ_of_lt (h3 m h)
      · simp only [List.mem_singleton] at h; omega
    have hbound' : ∀ m ∈ ns, m < n + 1 := fun m hm => Nat.lt_succ_of_lt (h3 m hm)
    simp only [parseGo]
    split
    · exact ih _ n acc ns h1 h2 h3
    · split
      · split
        · next e heq =>
          exact ih _ (n + 1) _ (ns ++ [n])
            (hsnoc _ (by simpa using parseEntryLine_id heq)) hpw hbound
        · have hacc' : ∀ acc' : List HostEntry,
              acc'.map (fun e => e.id) = acc.map (fun e => e.id) →
              ∃ ns' : List Nat,
                (parseGo (some raw) (n + 1) acc' rest).map (fun e => e.id) =
                  ns'.map (fun m => "entry-" ++ toString m) ∧ ns'.Pairwise (· < ·) := by
            intro acc' hacc
            exact ih _ (n + 1) acc' ns (hacc.trans h1) h2 hbound'
          refine hacc' _ ?_
          split
          · rfl
          · split
            · split
              · exact setLastComment_map_id _ acc
              · rfl
            · rfl
      · split
        · next e heq =>
          exact ih _ (n + 1) _ (ns ++ [n])
            (hsnoc _ (parseEntryLine_id heq)) hpw hbound
        · exact ih _ (n + 1) acc ns h1 h2 hbound'

/-- Claim C8 (amended): the numeric parts of the identifiers `entry-N`
assigned by a single `parse` call are strictly increasing in output order,
but not necessarily gapless: the counter also advances on lines whose decode
attempt fails (including comment lines), because the source increments it
with `entryId++` on every attempt. -/
theorem parse_ids_strictly_increasing (content : String) :
    ∃ ns : List Nat, (parse content).map (fun e => e.id) =
        ns.map (fun m => "entry-" ++ toString m) ∧ ns.Pairwise (· < ·) := by
  rw [parse]
  exact parseGo_ids _ none 0 [] [] rfl (by simp) (by simp)

/-- Counterexample to claim C8 as frozen: after a line that fails to decode,
the first produced entry receives `entry-1`, not `entry-0`, so the
identifiers are not sequential from zero. -/
theorem parse_ids_not_sequential :
    (parse "hello world\n1.2.3.4 host").map (fun e => e.id) = ["entry-1"] ∧
    ¬ ((parse "hello world\n1.2.3.4 host").map (fun e => e.id) =
        (List.range (parse "hello world\n1.2.3.4 host").length).map
          (fun i => "entry-" ++ toString i)) := by
  refine ⟨by decide, by decide⟩

/-! ### Token joins: basic facts -/

theorem tokJoins_ne_nil {toks : List (List Char)} {t : List Char}
    (h : TokJoins toks t) : t ≠ [] := by
  induction h with
  | single tok hne _ => exact hne
  | cons tok wsr rest toks hne _ _ _ _ _ =>
    intro hc
    exact hne (List.append_eq_nil.mp (List.append_eq_nil.mp hc).1).1

theorem tokJoins_toks {toks : List (List Char)} {t : List Char}
    (h : TokJoins toks t) :
    ∀ tok ∈ toks, tok ≠ [] ∧ ∀ c ∈ tok, isWsChar c = false := by
  induction h with
  | single tok hne hchar =>
    intro tk htk
    simp only [List.mem_singleton] at htk
    subst htk
    exact ⟨hne, hchar⟩
  | cons tok wsr rest toks hne hchar hwne hwchar htj ih =>
    intro tk htk
    rcases List.mem_cons.mp htk with h | h
    · subst h; exact ⟨hne, hchar⟩
    · exact ih tk h

theorem tokJoins_head {toks : List (List Char)} {t : List Char}
    (h : TokJoins toks t) : ∀ x ∈ t.head?, isWsChar x = false := by
  induction h with
  | single tok _ hchar =>
    intro x hmem
    exact hchar x (List.mem_of_mem_head? hmem)
  | cons tok wsr rest toks hne hchar _ _ _ _ =>
    intro x hmem
    rw [List.head?_append_of_ne_nil _ (by
        intro hc
        exact hne (List.append_eq_nil.mp hc).1)] at hmem
    rw [List.head?_append_of_ne_nil _ hne] at hmem
    exact hchar x (List.mem_of_mem_head? hmem)

theorem tokJoins_getLast {toks : List (List Char)} {t : List Char}
    (h : TokJoins toks t) : ∀ x ∈ t.getLast?, isWsChar x = false := by
  induction h with
  | single tok _ hchar =>
    intro x hmem
    exact hchar x (List.mem_of_mem_getLast? hmem)
  | cons tok wsr rest toks hne hchar hwne hwchar htj ih =>
    intro x hmem
    have hrne : rest ≠ [] := tokJoins_ne_nil htj
    rw [List.getLast?_append_of_ne_nil _ hrne] at hmem
    exact ih x hmem

theorem tokJoins_trimmed {toks : List (List Char)} {t : List Char}
    (h : TokJoins toks t) : jsTrim t = t :=
  jsTrim_eq_self_iff.mpr ⟨tokJoins_head h, tokJoins_getLast h⟩

theorem tokJoins_mem_iff {toks : List (List Char)} {t : List Char}
    (h : TokJoins toks t) {c : Char} (hc : isWsChar c = false) :
    c ∈ t ↔ ∃ tok ∈ toks, c ∈ tok := by
  induction h with
  | single tok _ _ => simp
  | cons tok wsr rest toks hne hchar hwne hwchar htj ih =>
    simp only [List.mem_append, List.mem_cons]
    constructor
    · rintro ((h | h) | h)
      · exact ⟨tok, Or.inl rfl, h⟩
      · rw [hwchar c h] at hc
        exact absurd hc (by simp)
      · obtain ⟨tk, htk, hctk⟩ := ih.mp h
        exact ⟨tk, Or.inr htk, hctk⟩
    · rintro ⟨tk, htk | htk, hctk⟩
      · subst htk; exact Or.inl (Or.inl hctk)
      · exact Or.inr (ih.mpr ⟨tk, htk, hctk⟩)

/-! ### Token joins compute the whitespace split -/

theorem wsSplit_all_nonws {t : List Char} (hne : t ≠ [])
    (hch : ∀ c ∈ t, isWsChar c = false) : wsSplit t = [t] := by
  induction t with
  | nil => exact absurd rfl hne
  | cons a rest ih =>
    have ha : isWsChar a = false := hch a (by simp)
    cases rest with
    | nil => simp [wsSplit, ha]
    | cons d rest2 =>
      have hrest : ∀ c ∈ d :: rest2, isWsChar c = false :=
        fun c hc => hch c (List.mem_cons_of_mem a hc)
      simp [wsSplit, ha, ih (by simp) hrest]

theorem wsSplit_ws_append {wsr v : List Char} (hwne : wsr ≠ [])
    (hw : ∀ c ∈ wsr, isWsChar c = true) (hvne : v ≠ [])
    (hv : ∀ x ∈ v.head?, isWsChar x = false) :
    wsSplit (wsr ++ v) = [] :: wsSplit v := by
  induction wsr with
  | nil => exact absurd rfl hwne
  | cons w wsr' ih =>
    have hwv : isWsChar w = true := hw w (by simp)
    cases wsr' with
    | nil =>
      cases v with
      | nil => exact absurd rfl hvne
      | cons e v' =>
        have he : isWsChar e = false := by simpa using hv e (by simp)
        simp [wsSplit, hwv, he]
    | cons w2 wsr'' =>
      have h2 : isWsChar w2 = true := hw w2 (by simp)
      have hrec := ih (by simp) (fun c hc => hw c (List.mem_cons_of_mem w hc))
      rw [show (w :: w2 :: wsr'') ++ v = w :: w2 :: (wsr'' ++ v) by simp] at *
      rw [show wsSplit (w :: w2 :: (wsr'' ++ v)) =
          wsSplit (w2 :: (wsr'' ++ v)) by simp [wsSplit, hwv, h2]]
      exact hrec

theorem wsSplit_tok_append {tok wsr v : List Char} (htne : tok ≠ [])
    (htc : ∀ c ∈ tok, isWsChar c = false) (hwne : wsr ≠ [])
    (hw : ∀ c ∈ wsr, isWsChar c = true) (hvne : v ≠ [])
    (hv : ∀ x ∈ v.head?, isWsChar x = false) :
    wsSplit (tok ++ wsr ++ v) = tok :: wsSplit v := by
  induction tok with
  | nil => exact absurd rfl htne
  | cons a tok' ih =>
    have ha : isWsChar a = false := htc a (by simp)
    cases tok' with
    | nil =>
      obtain ⟨w, wsr', rfl⟩ := List.exists_cons_of_ne_nil hwne
      have hskip := wsSplit_ws_append hwne hw hvne hv
      rw [show [a] ++ (w :: wsr') ++ v = a :: (w :: (wsr' ++ v)) by simp]
      rw [show (w :: wsr') ++ v = w :: (wsr' ++ v) by simp] at hskip
      rw [show wsSplit (a :: (w :: (wsr' ++ v))) =
          match wsSplit (w :: (wsr' ++ v)) with
          | [] => [[a]]
          | t :: ts => (a :: t) :: ts by simp [wsSplit, ha]]
      rw [hskip]
    | cons a2 tok'' =>
      have hrec := ih (by simp) (fun c hc => htc c (List.mem_cons_of_mem a hc))
      rw [show (a :: a2 :: tok'') ++ wsr ++ v =
          a :: ((a2 :: tok'') ++ wsr ++ v) by simp]
      have hshape : ∃ rest2, (a2 :: tok'') ++ wsr ++ v = a2 :: rest2 := by
        exact ⟨tok'' ++ wsr ++ v, by simp⟩
      obtain ⟨rest2, hrest2⟩ := hshape
      rw [hrest2]
      rw [show wsSplit (a :: a2 :: rest2) =
          match wsSplit (a2 :: rest2) with
          | [] => [[a]]
          | t :: ts => (a :: t) :: ts by simp [wsSplit, ha]]
      rw [← hrest2, hrec]

theorem tokJoins_wsSplit {toks : List (List Char)} {t : List Char}
    (h : TokJoins toks t) : wsSplit t = toks := by
  induction h with
  | single tok hne hchar => exact wsSplit_all_nonws hne hchar
  | cons tok wsr rest toks hne hchar hwne hwchar htj ih =>
    rw [show tok ++ wsr ++ rest = tok ++ wsr ++ rest by rfl]
    rw [wsSplit_tok_append hne hchar hwne hwchar
      (tokJoins_ne_nil htj) (tokJoins_head htj), ih]

/-! ### The whitespace split of a trimmed line is a token join -/

theorem head?_dropWhile (p : Char → Bool) (l : List Char) :
    ∀ x ∈ (l.dropWhile p).head?, p x = false := by
  induction l with
  | nil => simp
  | cons c rest ih =>
    intro x hmem
    rw [List.dropWhile_cons] at hmem
    split at hmem
    · exact ih x hmem
    · next hpc =>
      simp only [List.head?_cons, Option.mem_def, Option.some.injEq] at hmem
      subst hmem
      simpa using hpc

theorem getLast?_dropWhile (p : Char → Bool) (l : List Char)
    (h : l.dropWhile p ≠ []) : (l.dropWhile p).getLast? = l.getLast? := by
  conv_rhs => rw [← List.takeWhile_append_dropWhile p l]
  exact (List.getLast?_append_of_ne_nil _ h).symm

theorem jsTrim_idem (l : List Char) : jsTrim (jsTrim l) = jsTrim l := by
  cases hj : jsTrim l with
  | nil => rfl
  | cons c rest =>
    rw [← hj]
    apply jsTrim_eq_self_iff.mpr
    constructor
    · intro x hx
      have hne : (trimL l).reverse.dropWhile isWsChar ≠ [] := by
        intro h0
        rw [jsTrim] at hj
        rw [show l.dropWhile isWsChar = trimL l from rfl, h0] at hj
        exact absurd hj.symm (by simp)
      rw [jsTrim, show l.dropWhile isWsChar = trimL l from rfl,
        List.head?_reverse, getLast?_dropWhile _ _ hne,
        List.getLast?_eq_head?_reverse, List.reverse_reverse] at hx
      exact head?_dropWhile _ _ x hx
    · intro x hx
      rw [jsTrim, List.getLast?_eq_head?_reverse, List.reverse_reverse] at hx
      exact head?_dropWhile _ _ x hx

theorem jsTrim_sublist (l : List Char) : List.Sublist (jsTrim l) l := by
  have h1 : List.Sublist (trimL l) l := List.dropWhile_sublist _
  have h2 : List.Sublist ((trimL l).reverse.dropWhile isWsChar)
      (trimL l).reverse := List.dropWhile_sublist _
  have h3 := h2.reverse
  rw [List.reverse_reverse] at h3
  exact h3.trans h1

theorem mem_of_mem_jsTrim {l : List Char} {c : Char} (h : c ∈ jsTrim l) :
    c ∈ l := (jsTrim_sublist l).subset h

theorem dropWhile_append_all {p : Char → Bool} {a b : List Char}
    (h : ∀ c ∈ a, p c = true) : (a ++ b).dropWhile p = b.dropWhile p := by
  induction a with
  | nil => rfl
  | cons c a' ih =>
    rw [List.cons_append, List.dropWhile_cons, if_pos (h c (by simp))]
    exact ih (fun x hx => h x (List.mem_cons_of_mem c hx))

theorem jsTrim_ws_append {wsr v : List Char}
    (hw : ∀ c ∈ wsr, isWsChar c = true) : jsTrim (wsr ++ v) = jsTrim v := by
  rw [jsTrim, jsTrim, dropWhile_append_all hw]

theorem jsCommentOpt_eq_none {l : List Char} (h : '#' ∉ l) :
    jsCommentOpt l = none := by
  induction l with
  | nil => rfl
  | cons c rest ih =>
    have hc : c ≠ '#' := fun hc => h (hc ▸ List.mem_cons_self c rest)
    rw [jsCommentOpt, if_neg hc]
    exact ih (fun hm => h (List.mem_cons_of_mem c hm))

theorem jsCommentOpt_append {A suf : List Char} (h : '#' ∉ A)
    (hs : suf ≠ []) : jsCommentOpt (A ++ '#' :: suf) = some (jsTrim suf) := by
  induction A with
  | nil =>
    rw [List.nil_append, jsCommentOpt, if_pos rfl,
      if_neg (by simpa using hs)]
  | cons a A' ih =>
    have ha : a ≠ '#' := fun hc => h (hc ▸ List.mem_cons_self a A')
    rw [List.cons_append, jsCommentOpt, if_neg ha]
    exact ih (fun hm => h (List.mem_cons_of_mem a hm))

theorem wsSplit_tokJoins_aux :
    ∀ fuel : Nat, ∀ t : List Char, t.length ≤ fuel → jsTrim t = t →
      t ≠ [] → TokJoins (wsSplit t) t := by
  intro fuel
  induction fuel with
  | zero =>
    intro t hlen _ hne
    rw [List.length_eq_zero.mp (Nat.le_zero.mp hlen)] at hne
    exact absurd rfl hne
  | succ m ih =>
    intro t hlen htrim hne
    obtain ⟨hh, hl⟩ := jsTrim_eq_self_iff.mp htrim
    have hsplit : t.takeWhile (fun c => !isWsChar c) ++
        t.dropWhile (fun c => !isWsChar c) = t :=
      List.takeWhile_append_dropWhile _ _
    set tok := t.takeWhile (fun c => !isWsChar c) with htokdef
    set u := t.dropWhile (fun c => !isWsChar c) with hudef
    have htokne : tok ≠ [] := by
      obtain ⟨c, t', rfl⟩ := List.exists_cons_of_ne_nil hne
      have hc : isWsChar c = false := by simpa using hh c (by simp)
      rw [htokdef]
      simp [List.takeWhile_cons, hc]
    have htokch : ∀ c ∈ tok, isWsChar c = false := by
      intro c hc
      have := List.mem_takeWhile_imp hc
      simpa using this
    cases hue : u with
    | nil =>
      have ht : t = tok := by rw [← hsplit, hue, List.append_nil]
      rw [ht, wsSplit_all_nonws htokne htokch]
      exact TokJoins.single tok htokne htokch
    | cons w u' =>
      have hw : isWsChar w = true := by
        have h0 := head?_dropWhile (fun c => !isWsChar c) t w
        rw [← hudef, hue] at h0
        simpa using h0 (by simp)
      have husplit : u.takeWhile isWsChar ++ u.dropWhile isWsChar = u :=
        List.takeWhile_append_dropWhile _ _
      set wsr := u.takeWhile isWsChar with hwsrdef
      set v := u.dropWhile isWsChar with hvdef
      have hwsrne : wsr ≠ [] := by
        rw [hwsrdef, hue]
        simp [List.takeWhile_cons, hw]
      have hwsrch : ∀ c ∈ wsr, isWsChar c = true :=
        fun c hc => List.mem_takeWhile_imp hc
      have hvch : ∀ x ∈ v.head?, isWsChar x = false := by
        rw [hvdef]
        exact head?_dropWhile isWsChar u
      have hvne : v ≠ [] := by
        intro hv0
        have ht' : t = tok ++ wsr := by
          rw [← hsplit, ← husplit, hv0, List.append_nil]
        have hlast : t.getLast? = wsr.getLast? := by
          rw [ht']
          exact List.getLast?_append_of_ne_nil _ hwsrne
        rcases List.eq_nil_or_concat wsr with h0 | ⟨L, b, hLb⟩
        · exact hwsrne h0
        · have hb : wsr.getLast? = some b := by
            rw [hLb, List.concat_eq_append, List.getLast?_concat]
          have hbw : isWsChar b = true := hwsrch b (by rw [hLb]; simp)
          have := hl b (by rw [hlast]; exact hb)
          rw [hbw] at this
          exact absurd this (by simp)
      have hvtrim : jsTrim v = v := by
        apply jsTrim_eq_self_iff.mpr
        refine ⟨hvch, ?_⟩
        have hgl : t.getLast? = v.getLast? := by
          conv_lhs => rw [← hsplit, ← husplit]
          rw [← List.append_assoc]
          exact List.getLast?_append_of_ne_nil _ hvne
        rw [← hgl]
        exact hl
      have hvlen : v.length ≤ m := by
        have e1 : tok.length + u.length = t.length := by
          rw [← hsplit]; simp
        have e2 : wsr.length + v.length = u.length := by
          rw [← husplit]; simp
        have p1 : 0 < tok.length := List.length_pos.mpr htokne
        have p2 : 0 < wsr.length := List.length_pos.mpr hwsrne
        omega
      have ihv := ih v hvlen hvtrim hvne
      have ht : t = tok ++ wsr ++ v := by
        rw [List.append_assoc, husplit, hsplit]
      rw [ht, wsSplit_tok_append htokne htokch hwsrne hwsrch hvne hvch]
      exact TokJoins.cons tok wsr v (wsSplit v) htokne htokch hwsrne hwsrch ihv

theorem wsSplit_tokJoins {t : List Char} (htrim : jsTrim t = t)
    (hne : t ≠ []) : TokJoins (wsSplit t) t :=
  wsSplit_tokJoins_aux t.length t le_rfl htrim hne

/-! ### Locating the comment marker inside a joined line -/

theorem tokJoins_cons_inv {tok0 : List Char} {toks : List (List Char)}
    {t : List Char} (h : TokJoins (tok0 :: toks) t) :
    (toks = [] ∧ t = tok0) ∨
      ∃ wsr rest, t = tok0 ++ wsr ++ rest ∧ wsr ≠ [] ∧
        (∀ c ∈ wsr, isWsChar c = true) ∧ TokJoins toks rest := by
  cases h with
  | single tok hne hchar => exact Or.inl ⟨rfl, rfl⟩
  | cons tok wsr rest toks hne hchar hwne hwchar htj =>
    exact Or.inr ⟨wsr, rest, rfl, hwne, hwchar, htj⟩

theorem tokJoins_marker_decomp :
    ∀ pre : List (List Char), ∀ ts : List (List Char), ∀ t : List Char,
      TokJoins (pre ++ ['#'] :: ts) t → (∀ tok ∈ pre, '#' ∉ tok) → ts ≠ [] →
      ∃ A wsr B, t = A ++ '#' :: (wsr ++ B) ∧ '#' ∉ A ∧ wsr ≠ [] ∧
        (∀ c ∈ wsr, isWsChar c = true) ∧ TokJoins ts B := by
  intro pre
  induction pre with
  | nil =>
    intro ts t htj hpre hts
    rw [List.nil_append] at htj
    rcases tokJoins_cons_inv htj with ⟨hts0, _⟩ | ⟨wsr, rest, ht, hwne, hwchar, htj'⟩
    · exact absurd hts0 hts
    · exact ⟨[], wsr, rest, by simp [ht], by simp, hwne, hwchar, htj'⟩
  | cons p pre' ih =>
    intro ts t htj hpre hts
    rw [List.cons_append] at htj
    rcases tokJoins_cons_inv htj with ⟨hts0, _⟩ | ⟨wsr, rest, ht, hwne, hwchar, htj'⟩
    · exact absurd hts0 (by simp)
    · obtain ⟨A', wsr', B, hB, hAfree, hwne', hwchar', htjB⟩ :=
        ih ts rest htj' (fun tk htk => hpre tk (List.mem_cons_of_mem p htk)) hts
      refine ⟨p ++ wsr ++ A', wsr', B, ?_, ?_, hwne', hwchar', htjB⟩
      · rw [ht, hB]
        simp
      · intro hmem
        simp only [List.mem_append] at hmem
        rcases hmem with (h | h) | h
        · exact hpre p (List.mem_cons_self p pre') h
        · have := hwchar '#' h
          exact absurd this (by decide)
        · exact hAfree h

/-! ### Small helpers about tokens, hash marks and the entry-line decoder -/

theorem drop_length_takeWhile {α : Type} (p : α → Bool) (l : List α) :
    l.drop (l.takeWhile p).length = l.dropWhile p := by
  induction l with
  | nil => rfl
  | cons x xs ih =>
    by_cases hp : p x
    · simp [List.takeWhile_cons, List.dropWhile_cons, hp, ih]
    · simp [List.takeWhile_cons, List.dropWhile_cons, hp]

theorem startsWithL_hash_false {tk : List Char} (h : '#' ∉ tk) :
    startsWithL tk ['#'] = false := by
  cases tk with
  | nil => rfl
  | cons a r =>
    have ha : a ≠ '#' := fun ha => h (ha ▸ List.mem_cons_self a r)
    simp [startsWithL, ha]

theorem hash_mem_of_startsWithL {tk : List Char}
    (h : startsWithL tk ['#'] = true) : '#' ∈ tk := by
  cases tk with
  | nil => simp [startsWithL] at h
  | cons a r =>
    simp only [startsWithL, Bool.and_eq_true, decide_eq_true_eq] at h
    exact h.1 ▸ List.mem_cons_self a r

theorem hash_not_mem_of_tok {tk : List Char} (hne : tk ≠ [])
    (hstart : startsWithL tk ['#'] = false) (hdrop : '#' ∉ tk.drop 1) :
    '#' ∉ tk := by
  obtain ⟨a, r, rfl⟩ := List.exists_cons_of_ne_nil hne
  intro hmem
  rcases List.mem_cons.mp hmem with h | h
  · rw [← h] at hstart
    simp [startsWithL] at hstart
  · exact hdrop (by simpa using h)

theorem parseEntryLine_none_of_short {line : List Char} {n : Nat}
    (h : (wsSplit line).length < 2) : parseEntryLine line n = none := by
  simp only [parseEntryLine]
  rw [if_pos h]

theorem parseEntryLine_none_of_invalid {line ip : List Char}
    {rest : List (List Char)} {n : Nat} (heq : wsSplit line = ip :: rest)
    (hbad : isValidIPL ip = false) : parseEntryLine line n = none := by
  simp only [parseEntryLine]
  split
  · rfl
  · rw [heq]
    simp [hbad]

theorem parseEntryLine_some {line ip : List Char} {rest : List (List Char)}
    {n : Nat} (heq : wsSplit line = ip :: rest) (hrest : rest ≠ [])
    (hgood : isValidIPL ip = true) :
    parseEntryLine line n = some
      { id := "entry-" ++ toString n, ip := ⟨ip⟩,
        hostnames :=
          (rest.filter fun h => !h.isEmpty && !startsWithL h ['#']).map (⟨·⟩),
        enabled := true,
        comment := (jsCommentOpt line).map (⟨·⟩), group := none } := by
  have hlen : ¬ (wsSplit line).length < 2 := by
    rw [heq]
    cases rest with
    | nil => exact absurd rfl hrest
    | cons r rs => simp only [List.length_cons]; omega
  simp only [parseEntryLine]
  rw [if_neg hlen, heq]
  simp [hgood]

theorem parseEntryLine_reId (line : List Char) (n : Nat) :
    parseEntryLine line n = (parseEntryLine line 0).map
      (fun e => { e with id := "entry-" ++ toString n }) := by
  simp only [parseEntryLine]
  split
  · rfl
  · split
    · rfl
    · split
      · rfl
      · rfl

/-! ### Building token joins for formatted lines -/

theorem tokJoins_append {xs ys : List (List Char)} {a b : List Char}
    (ha : TokJoins xs a) (hb : TokJoins ys b) :
    TokJoins (xs ++ ys) (a ++ [' '] ++ b) := by
  induction ha with
  | single tok hne hchar =>
    exact TokJoins.cons tok [' '] b ys hne hchar (by simp)
      (by intro c hc; simp only [List.mem_singleton] at hc; subst hc; rfl) hb
  | cons tok wsr rest toks hne hchar hwne hwchar htj ih =>
    have h := TokJoins.cons tok wsr (rest ++ [' '] ++ b) (toks ++ ys)
      hne hchar hwne hwchar ih
    have heq : tok ++ wsr ++ (rest ++ [' '] ++ b) =
        tok ++ wsr ++ rest ++ [' '] ++ b := by simp
    rw [heq] at h
    exact h

theorem tokJoins_joinWith {toks : List (List Char)} (hne : toks ≠ [])
    (hch : ∀ tok ∈ toks, tok ≠ [] ∧ ∀ c ∈ tok, isWsChar c = false) :
    TokJoins toks (joinWith [' '] toks) := by
  induction toks with
  | nil => exact absurd rfl hne
  | cons x toks' ih =>
    cases toks' with
    | nil => exact TokJoins.single x (hch x (by simp)).1 (hch x (by simp)).2
    | cons y ts' =>
      have ihy := ih (by simp)
        (fun tok htok => hch tok (List.mem_cons_of_mem x htok))
      have h := TokJoins.cons x [' '] (joinWith [' '] (y :: ts')) (y :: ts')
        (hch x (by simp)).1 (hch x (by simp)).2 (by simp)
        (by intro c hc; simp only [List.mem_singleton] at hc; subst hc; rfl)
        ihy
      exact h

theorem mem_joinWith {toks : List (List Char)} {c : Char}
    (h : c ∈ joinWith [' '] toks) : c = ' ' ∨ ∃ tok ∈ toks, c ∈ tok := by
  induction toks with
  | nil => simp [joinWith] at h
  | cons x toks' ih =>
    cases toks' with
    | nil => exact Or.inr ⟨x, by simp, by simpa [joinWith] using h⟩
    | cons y ts' =>
      rw [show joinWith [' '] (x :: y :: ts') =
          x ++ [' '] ++ joinWith [' '] (y :: ts') from rfl] at h
      simp only [List.mem_append] at h
      rcases h with (h | h) | h
      · exact Or.inr ⟨x, by simp, h⟩
      · simp only [List.mem_singleton] at h
        exact Or.inl h
      · rcases ih h with h | ⟨tk, htk, hc⟩
        · exact Or.inl h
        · exact Or.inr ⟨tk, List.mem_cons_of_mem x htk, hc⟩

/-! ### Decoding a strictly well-formed line -/

/-- A strictly well-formed raw line is nonblank, is not a comment line, and
decodes (after the trim the parser applies) to an enabled entry satisfying
the `GoodEntry` invariant, for every counter value. -/
theorem strictWf_decode {l : List Char} (hwf : strictWfLine l = true)
    (hnl : '\n' ∉ l) :
    (jsTrim l).isEmpty = false ∧ startsWithL (jsTrim l) ['#'] = false ∧
      ∀ n, ∃ e, parseEntryLine (jsTrim l) n = some e ∧ GoodEntry e := by
  rw [strictWfLine] at hwf
  split at hwf
  · exact absurd hwf (by simp)
  · next addr rest heq =>
    simp only [Bool.and_eq_true, Bool.not_eq_true',
      List.isEmpty_eq_false] at hwf
    obtain ⟨⟨hvalid, hhash⟩, hhs, hcomm⟩ := hwf
    have hhash' : '#' ∉ addr := by simpa using hhash
    have htrim : jsTrim (jsTrim l) = jsTrim l := jsTrim_idem l
    have hrestsplit : rest.takeWhile (fun u => !u.contains '#') ++
        rest.dropWhile (fun u => !u.contains '#') = rest :=
      List.takeWhile_append_dropWhile _ _
    rw [drop_length_takeWhile] at hcomm
    have hsne : rest.takeWhile (fun u => !u.contains '#') ≠ [] := hhs
    have hrestne : rest ≠ [] := by
      intro h0
      rw [h0] at hsne
      exact hsne rfl
    have htne : jsTrim l ≠ [] := by
      intro h0
      rw [h0] at heq
      have : addr = [] ∧ [] = rest := by simpa [wsSplit] using heq
      exact hrestne this.2.symm
    have htoks_ne := wsSplit_toks_ne_nil htrim htne
    have htj : TokJoins (addr :: rest) (jsTrim l) :=
      heq ▸ wsSplit_tokJoins htrim htne
    have haddrne : addr ≠ [] :=
      htoks_ne addr (heq ▸ List.mem_cons_self addr rest)
    have hstart : startsWithL (jsTrim l) ['#'] = false := by
      rcases tokJoins_cons_inv htj with ⟨_, ht0⟩ | ⟨wsr, rest', ht0, _, _, _⟩
      · rw [ht0]
        exact startsWithL_hash_false hhash'
      · rw [ht0]
        obtain ⟨a, addr', rfl⟩ := List.exists_cons_of_ne_nil haddrne
        have ha : a ≠ '#' := fun h => hhash' (h ▸ List.mem_cons_self a addr')
        rw [show (a :: addr') ++ wsr ++ rest' =
            a :: (addr' ++ (wsr ++ rest')) by simp]
        simp [startsWithL, ha]
    refine ⟨by simp [htne], hstart, ?_⟩
    intro n
    have hmem_rest : ∀ u ∈ rest, u ∈ wsSplit (jsTrim l) := by
      intro u hu
      rw [heq]
      exact List.mem_cons_of_mem addr hu
    have hrest_ne : ∀ u ∈ rest, u ≠ [] := fun u hu => htoks_ne u (hmem_rest u hu)
    have hrest_ch : ∀ u ∈ rest, ∀ c ∈ u, isWsChar c = false :=
      fun u hu => wsSplit_tok_chars (jsTrim l) u (hmem_rest u hu)
    have hs_mem : ∀ u ∈ rest.takeWhile (fun u => !u.contains '#'), u ∈ rest :=
      fun u hu => hrestsplit ▸
        List.mem_append_left (rest.dropWhile (fun u => !u.contains '#')) hu
    have hs_hashfree :
        ∀ u ∈ rest.takeWhile (fun u => !u.contains '#'), '#' ∉ u := by
      intro u hu
      have := List.mem_takeWhile_imp hu
      simpa using this
    have haddr_ch : ∀ c ∈ addr, isWsChar c = false :=
      wsSplit_tok_chars (jsTrim l) addr (heq ▸ List.mem_cons_self addr rest)
    have hs_keep : ∀ u ∈ rest.takeWhile (fun u => !u.contains '#'),
        (!u.isEmpty && !startsWithL u ['#']) = true := by
      intro u hu
      have h1 : u ≠ [] := hrest_ne u (hs_mem u hu)
      have h2 : startsWithL u ['#'] = false :=
        startsWithL_hash_false (hs_hashfree u hu)
      simp [h1, h2]
    cases hcs : rest.dropWhile (fun u => !u.contains '#') with
    | nil =>
      -- no comment part: all tokens are hash-free
      have hrest_eq : rest = rest.takeWhile (fun u => !u.contains '#') := by
        have h2 := hrestsplit
        rw [hcs, List.append_nil] at h2
        exact h2.symm
      have hall_hashfree : ∀ tok ∈ addr :: rest, '#' ∉ tok := by
        intro tok htok
        rcases List.mem_cons.mp htok with h | h
        · subst h; exact hhash'
        · exact hs_hashfree tok (hrest_eq ▸ h)
      have ht_hashfree : '#' ∉ jsTrim l := by
        intro hmem
        obtain ⟨tok, htok, hc⟩ := (tokJoins_mem_iff htj (by decide)).mp hmem
        exact hall_hashfree tok htok hc
      have hcnone : jsCommentOpt (jsTrim l) = none :=
        jsCommentOpt_eq_none ht_hashfree
      have hfilter : rest.filter (fun h => !h.isEmpty && !startsWithL h ['#']) =
          rest := by
        apply List.filter_eq_self.mpr
        intro u hu
        exact hs_keep u (hrest_eq ▸ hu)
      refine ⟨_, parseEntryLine_some heq hrestne hvalid, ?_⟩
      rw [hfilter, hcnone]
      refine ⟨⟨haddrne, haddr_ch⟩, hhash', hvalid, ?_, ?_, rfl, Or.inl rfl⟩
      · simp [hrestne]
      · intro h hh
        obtain ⟨u, hu, rfl⟩ := List.mem_map.mp hh
        refine ⟨⟨hrest_ne u hu, hrest_ch u hu⟩, ?_⟩
        exact hs_hashfree u (hrest_eq ▸ hu)
    | cons m ts2 =>
      rw [hcs] at hcomm
      rw [strictCommentToks] at hcomm
      simp only [Bool.and_eq_true, Bool.not_eq_true', List.isEmpty_eq_false,
        decide_eq_true_eq, List.all_eq_true] at hcomm
      obtain ⟨⟨hm, hts2ne⟩, hts2drop⟩ := hcomm
      subst hm
      have hrest_eq : rest =
          rest.takeWhile (fun u => !u.contains '#') ++ ['#'] :: ts2 := by
        have h2 := hrestsplit
        rw [hcs] at h2
        exact h2.symm
      have hts2_mem : ∀ u ∈ ts2, u ∈ rest := by
        intro u hu
        rw [hrest_eq]
        exact List.mem_append_right _ (List.mem_cons_of_mem _ hu)
      -- decompose the trimmed line at the marker
      have htj' : TokJoins ((addr :: rest.takeWhile (fun u => !u.contains '#'))
          ++ ['#'] :: ts2) (jsTrim l) := by
        have heq2 : addr :: rest =
            (addr :: rest.takeWhile (fun u => !u.contains '#')) ++
              ['#'] :: ts2 := by
          conv_lhs => rw [hrest_eq]
          rw [List.cons_append]
        exact heq2 ▸ htj
      obtain ⟨A, wsr, B, htB, hAfree, hwsrne, hwsrch, htjB⟩ :=
        tokJoins_marker_decomp _ ts2 _ htj'
          (by
            intro tok htok
            rcases List.mem_cons.mp htok with h | h
            · subst h; exact hhash'
            · exact hs_hashfree tok h)
          hts2ne
      have hBne : B ≠ [] := tokJoins_ne_nil htjB
      have hBtrim : jsTrim B = B := tokJoins_trimmed htjB
      have hcval : jsCommentOpt (jsTrim l) = some B := by
        rw [htB, jsCommentOpt_append hAfree (by
          intro h0
          exact hwsrne (List.append_eq_nil.mp h0).1)]
        rw [jsTrim_ws_append hwsrch, hBtrim]
      have hBsub : ∀ c ∈ B, c ∈ jsTrim l := by
        intro c hc
        rw [htB]
        simp [hc]
      have hBnl : '\n' ∉ B := by
        intro hmem
        exact hnl (mem_of_mem_jsTrim (hBsub '\n' hmem))
      have hwsB : wsSplit B = ts2 := tokJoins_wsSplit htjB
      have hfilter : rest.filter (fun h => !h.isEmpty && !startsWithL h ['#']) =
          rest.takeWhile (fun u => !u.contains '#') ++
            ts2.filter (fun u => !startsWithL u ['#']) := by
        conv_lhs => rw [hrest_eq]
        rw [List.filter_append]
        congr 1
        · exact List.filter_eq_self.mpr hs_keep
        · rw [List.filter_cons]
          rw [if_neg (by simp [startsWithL])]
          apply List.filter_congr
          intro u hu
          have h1 : u ≠ [] := hrest_ne u (hts2_mem u hu)
          simp [h1]
      refine ⟨_, parseEntryLine_some heq hrestne hvalid, ?_⟩
      rw [hfilter, hcval]
      refine ⟨⟨haddrne, haddr_ch⟩, hhash', hvalid, ?_, ?_, rfl, Or.inr ?_⟩
      · intro h0
        have h1 := List.map_eq_nil_iff.mp h0
        exact hsne (List.append_eq_nil.mp h1).1
      · intro h hh
        obtain ⟨u, hu, rfl⟩ := List.mem_map.mp hh
        rcases List.mem_append.mp hu with h1 | h1
        · exact ⟨⟨hrest_ne u (hs_mem u h1), hrest_ch u (hs_mem u h1)⟩,
            hs_hashfree u h1⟩
        · obtain ⟨hu2, hcond⟩ := List.mem_filter.mp h1
          have hune : u ≠ [] := hrest_ne u (hts2_mem u hu2)
          refine ⟨⟨hune, hrest_ch u (hts2_mem u hu2)⟩, ?_⟩
          exact hash_not_mem_of_tok hune (by simpa using hcond)
            (by simpa using hts2drop u hu2)
      · refine ⟨⟨B⟩, rfl, hBne, hBtrim, hBnl, ?_⟩
        intro tk htk
        rw [hwsB] at htk
        have htkne : tk ≠ [] := hrest_ne tk (hts2_mem tk htk)
        refine ⟨htkne, by simpa using hts2drop tk htk, ?_⟩
        intro hns
        apply List.mem_map.mpr
        refine ⟨tk, ?_, rfl⟩
        exact List.mem_append_right _ (List.mem_filter.mpr ⟨htk, by simp [hns]⟩)

/-! ### Re-parsing a formatted entry line -/

theorem map_mk_data (l : List String) :
    (l.map String.data).map (fun d => (⟨d⟩ : String)) = l := by
  induction l with
  | nil => rfl
  | cons x xs ih => simp only [List.map_cons, ih]

/-- Every `GoodEntry` formats to a single line that is trimmed, nonblank, not
a comment line, newline-free, and re-parses (at any counter value) to an
entry with the same projection: same ip, same hostname set, enabled, same
comment. -/
theorem goodEntry_format {e : HostEntry} (hg : GoodEntry e) :
    ∃ fline : List Char,
      formatEntry e = [⟨fline⟩] ∧ jsTrim fline = fline ∧ fline ≠ [] ∧
        startsWithL fline ['#'] = false ∧ '\n' ∉ fline ∧
        ∀ n, ∃ e', parseEntryLine fline n = some e' ∧
          entryProj e' = entryProj e := by
  obtain ⟨⟨hipne, hipch⟩, hiphash, hipvalid, hhne, hhprops, hen, hcomm⟩ := hg
  have hbasetoks : ∀ tok ∈ e.ip.data :: e.hostnames.map String.data,
      tok ≠ [] ∧ ∀ c ∈ tok, isWsChar c = false := by
    intro tok htok
    rcases List.mem_cons.mp htok with h | h
    · subst h; exact ⟨hipne, hipch⟩
    · obtain ⟨x, hx, rfl⟩ := List.mem_map.mp h
      exact (hhprops x hx).1
  have htjbase : TokJoins (e.ip.data :: e.hostnames.map String.data)
      (joinWith [' '] (e.ip.data :: e.hostnames.map String.data)) :=
    tokJoins_joinWith (by simp) hbasetoks
  have hbase_data : (e.ip ++ " " ++ joinStr " " e.hostnames).data =
      joinWith [' '] (e.ip.data :: e.hostnames.map String.data) := by
    obtain ⟨h1, hrest, hhl⟩ := List.exists_cons_of_ne_nil hhne
    rw [hhl]
    rfl
  have hbase_hash : '#' ∉ joinWith [' ']
      (e.ip.data :: e.hostnames.map String.data) := by
    intro hmem
    rcases mem_joinWith hmem with h | ⟨tok, htok, hc⟩
    · exact absurd h (by decide)
    · rcases List.mem_cons.mp htok with h | h
      · subst h; exact hiphash hc
      · obtain ⟨x, hx, rfl⟩ := List.mem_map.mp h
        exact (hhprops x hx).2 hc
  have hbase_nl : '\n' ∉ joinWith [' ']
      (e.ip.data :: e.hostnames.map String.data) := by
    intro hmem
    rcases mem_joinWith hmem with h | ⟨tok, htok, hc⟩
    · exact absurd h (by decide)
    · have := (hbasetoks tok htok).2 '\n' hc
      exact absurd this (by decide)
  have hstart_base : ∀ X : List Char, startsWithL
      (joinWith [' '] (e.ip.data :: e.hostnames.map String.data) ++ X)
        ['#'] = false := by
    intro X
    obtain ⟨a, ip', hip⟩ := List.exists_cons_of_ne_nil hipne
    have ha : a ≠ '#' := fun h => hiphash (h ▸ hip ▸ List.mem_cons_self a ip')
    obtain ⟨h1, hrest, hhl⟩ := List.exists_cons_of_ne_nil hhne
    rw [hhl, show joinWith [' ']
        (e.ip.data :: (h1 :: hrest).map String.data) =
      e.ip.data ++ [' '] ++
        joinWith [' '] ((h1 :: hrest).map String.data) from rfl, hip]
    rw [show ((a :: ip') ++ [' '] ++
        joinWith [' '] ((h1 :: hrest).map String.data)) ++ X =
      a :: (ip' ++ [' '] ++
        joinWith [' '] ((h1 :: hrest).map String.data) ++ X) by simp]
    simp [startsWithL, ha]
  have hfilter_hosts : (e.hostnames.map String.data).filter
      (fun h => !h.isEmpty && !startsWithL h ['#']) =
        e.hostnames.map String.data := by
    apply List.filter_eq_self.mpr
    intro u hu
    obtain ⟨x, hx, rfl⟩ := List.mem_map.mp hu
    have h1 : x.data ≠ [] := (hhprops x hx).1.1
    have h2 : startsWithL x.data ['#'] = false :=
      startsWithL_hash_false (hhprops x hx).2
    simp [h1, h2]
  rcases hcomm with hnone | ⟨c, hceq, hcne, hctrim, hcnl, hctoks⟩
  · -- no comment
    refine ⟨(e.ip ++ " " ++ joinStr " " e.hostnames).data, ?_, ?_, ?_, ?_, ?_, ?_⟩
    · rw [formatEntry, if_pos hen, if_neg (by rw [hnone]; simp [commentTruthy])]
    · rw [hbase_data]; exact tokJoins_trimmed htjbase
    · rw [hbase_data]; exact tokJoins_ne_nil htjbase
    · rw [hbase_data, show joinWith [' ']
          (e.ip.data :: e.hostnames.map String.data) =
        joinWith [' '] (e.ip.data :: e.hostnames.map String.data) ++ []
        by simp]
      exact hstart_base []
    · rw [hbase_data]; exact hbase_nl
    · intro n
      have hws : wsSplit (e.ip ++ " " ++ joinStr " " e.hostnames).data =
          e.ip.data :: e.hostnames.map String.data := by
        rw [hbase_data]; exact tokJoins_wsSplit htjbase
      refine ⟨_, parseEntryLine_some hws (by simp [hhne]) hipvalid, ?_⟩
      rw [hfilter_hosts]
      have hcnone : jsCommentOpt (e.ip ++ " " ++ joinStr " " e.hostnames).data
          = none := by
        rw [hbase_data]; exact jsCommentOpt_eq_none hbase_hash
      rw [hcnone, map_mk_data]
      simp [entryProj, hen, hnone]
  · -- comment present
    have hctruthy : commentTruthy e.comment = true := by
      rw [hceq, commentTruthy]
      cases hie : c.isEmpty with
      | false => rfl
      | true =>
        have : c = "" := (String.isEmpty_iff c).mp hie
        rw [this] at hcne
        exact absurd rfl hcne
    have hctokprops : ∀ tok ∈ wsSplit c.data,
        tok ≠ [] ∧ ∀ x ∈ tok, isWsChar x = false := by
      intro tok htok
      exact ⟨(hctoks tok htok).1, wsSplit_tok_chars c.data tok htok⟩
    have htjc0 : TokJoins (wsSplit c.data) c.data :=
      wsSplit_tokJoins hctrim hcne
    have htjc : TokJoins (['#'] :: wsSplit c.data)
        (['#'] ++ [' '] ++ c.data) :=
      TokJoins.cons ['#'] [' '] c.data _ (by simp)
        (by intro x hx; simp only [List.mem_singleton] at hx; subst hx; rfl)
        (by simp)
        (by intro x hx; simp only [List.mem_singleton] at hx; subst hx; rfl)
        htjc0
    have htjf : TokJoins
        ((e.ip.data :: e.hostnames.map String.data) ++ ['#'] :: wsSplit c.data)
        (joinWith [' '] (e.ip.data :: e.hostnames.map String.data) ++ [' '] ++
          (['#'] ++ [' '] ++ c.data)) := tokJoins_append htjbase htjc
    have hfline_data : (e.ip ++ " " ++ joinStr " " e.hostnames ++ " # " ++ c).data
        = joinWith [' '] (e.ip.data :: e.hostnames.map String.data) ++ [' '] ++
          (['#'] ++ [' '] ++ c.data) := by
      show (e.ip ++ " " ++ joinStr " " e.hostnames).data ++ " # ".data ++ c.data
          = _
      rw [hbase_data]
      simp
    refine ⟨(e.ip ++ " " ++ joinStr " " e.hostnames ++ " # " ++ c).data,
      ?_, ?_, ?_, ?_, ?_, ?_⟩
    · rw [formatEntry, if_pos hen, if_pos hctruthy, hceq]
      rfl
    · rw [hfline_data]; exact tokJoins_trimmed htjf
    · rw [hfline_data]; exact tokJoins_ne_nil htjf
    · rw [hfline_data, show joinWith [' ']
          (e.ip.data :: e.hostnames.map String.data) ++ [' '] ++
            (['#'] ++ [' '] ++ c.data) =
        joinWith [' '] (e.ip.data :: e.hostnames.map String.data) ++
          ([' '] ++ (['#'] ++ [' '] ++ c.data)) by simp]
      exact hstart_base _
    · rw [hfline_data]
      intro hmem
      simp only [List.mem_append] at hmem
      rcases hmem with (h | h) | h
      · exact hbase_nl h
      · simp only [List.mem_singleton] at h
        exact absurd h (by decide)
      · simp only [List.mem_append, List.mem_cons, List.mem_singleton] at h
        rcases h with (h | h) | h
        · exact absurd h (by decide)
        · exact absurd h (by decide)
        · exact hcnl h
    · intro n
      have hws : wsSplit
          (e.ip ++ " " ++ joinStr " " e.hostnames ++ " # " ++ c).data =
          (e.ip.data :: e.hostnames.map String.data) ++
            ['#'] :: wsSplit c.data := by
        rw [hfline_data]; exact tokJoins_wsSplit htjf
      rw [show ((e.ip.data :: e.hostnames.map String.data) ++
          ['#'] :: wsSplit c.data) =
        e.ip.data :: (e.hostnames.map String.data ++
          ['#'] :: wsSplit c.data) by simp] at hws
      refine ⟨_, parseEntryLine_some hws (by simp) hipvalid, ?_⟩
      have hfiltereq : (e.hostnames.map String.data ++
          ['#'] :: wsSplit c.data).filter
            (fun h => !h.isEmpty && !startsWithL h ['#']) =
          e.hostnames.map String.data ++
            (wsSplit c.data).filter (fun u => !startsWithL u ['#']) := by
        rw [List.filter_append, hfilter_hosts, List.filter_cons,
          if_neg (by simp [startsWithL])]
        congr 1
        apply List.filter_congr
        intro u hu
        have h1 : u ≠ [] := (hctoks u hu).1
        simp [h1]
      rw [hfiltereq]
      have hcval : jsCommentOpt
          (e.ip ++ " " ++ joinStr " " e.hostnames ++ " # " ++ c).data =
          some c.data := by
        rw [hfline_data]
        rw [show joinWith [' '] (e.ip.data :: e.hostnames.map String.data) ++
            [' '] ++ (['#'] ++ [' '] ++ c.data) =
          (joinWith [' '] (e.ip.data :: e.hostnames.map String.data) ++
            [' ']) ++ '#' :: (' ' :: c.data) by simp]
        rw [jsCommentOpt_append (by
            intro hmem
            simp only [List.mem_append, List.mem_singleton] at hmem
            rcases hmem with h | h
            · exact hbase_hash h
            · exact absurd h (by decide))
          (by simp)]
        rw [show (' ' :: c.data) = [' '] ++ c.data from rfl,
          jsTrim_ws_append (by
            intro x hx
            simp only [List.mem_singleton] at hx
            subst hx
            rfl), hctrim]
      rw [hcval, List.map_append, map_mk_data]
      have hfin : (e.hostnames ++ ((wsSplit c.data).filter
          (fun u => !startsWithL u ['#'])).map
            (fun d => (⟨d⟩ : String))).toFinset = e.hostnames.toFinset := by
        rw [List.toFinset_append]
        apply Finset.union_eq_left.mpr
        intro x hx
        rw [List.mem_toFinset] at hx
        rw [List.mem_toFinset]
        obtain ⟨u, hu, rfl⟩ := List.mem_map.mp hx
        obtain ⟨hu2, hcond⟩ := List.mem_filter.mp hu
        exact (hctoks u hu2).2.2 (by simpa using hcond)
      simp [entryProj, hfin, hen, hceq]

/-! ### Splitting the serialized document back into its lines -/

theorem splitOnChar_clean_append {sep : Char} {a : List Char} (hs : sep ∉ a) :
    ∀ {l t : List Char} {ts : List (List Char)},
      splitOnChar sep l = t :: ts →
      splitOnChar sep (a ++ l) = (a ++ t) :: ts := by
  induction a with
  | nil =>
    intro l t ts h
    simpa using h
  | cons c a' ih =>
    intro l t ts h
    have hc : c ≠ sep := fun hc => hs (hc ▸ List.mem_cons_self c a')
    have hrec := ih (fun hm => hs (List.mem_cons_of_mem c hm)) h
    rw [List.cons_append]
    simp only [splitOnChar]
    rw [if_neg hc, hrec]
    rfl

theorem splitOnChar_join_lines {parts : List (List Char)} (hne : parts ≠ [])
    (hnl : ∀ p ∈ parts, '\n' ∉ p) :
    splitOnChar '\n' (joinWith ['\n'] parts ++ ['\n']) = parts ++ [[]] := by
  induction parts with
  | nil => exact absurd rfl hne
  | cons p ps ih =>
    cases ps with
    | nil =>
      rw [show joinWith ['\n'] [p] = p from rfl,
        splitOnChar_clean_append (hnl p (List.mem_cons_self p []))
          (show splitOnChar '\n' ['\n'] = [] :: [[]] from rfl)]
      simp
    | cons q qs =>
      have hrec := ih (by simp)
        (fun x hx => hnl x (List.mem_cons_of_mem p hx))
      rw [show joinWith ['\n'] (p :: q :: qs) ++ ['\n'] =
          p ++ ('\n' :: (joinWith ['\n'] (q :: qs) ++ ['\n'])) by
        rw [show joinWith ['\n'] (p :: q :: qs) =
            p ++ ['\n'] ++ joinWith ['\n'] (q :: qs) from rfl]
        simp]
      rw [splitOnChar_clean_append (hnl p (List.mem_cons_self p (q :: qs)))
        (show splitOnChar '\n'
            ('\n' :: (joinWith ['\n'] (q :: qs) ++ ['\n'])) =
            [] :: ((q :: qs) ++ [[]]) by
          rw [show splitOnChar '\n'
              ('\n' :: (joinWith ['\n'] (q :: qs) ++ ['\n'])) =
              [] :: splitOnChar '\n' (joinWith ['\n'] (q :: qs) ++ ['\n'])
            from rfl]
          rw [hrec])]
      simp

theorem map_data_mk (ls : List (List Char)) :
    (ls.map (fun l => (⟨l⟩ : String))).map String.data = ls := by
  induction ls with
  | nil => rfl
  | cons x xs ih =>
    rw [List.map_cons, List.map_cons, ih]

theorem linesProj_append (a b : List (List Char)) :
    linesProj (a ++ b) = linesProj a ++ linesProj b := by
  induction a with
  | nil => rfl
  | cons l a' ih =>
    rw [List.cons_append]
    simp only [linesProj]
    split
    · exact ih
    · split
      · rw [ih]
        rfl
      · exact ih

/-! ### The line loop over clean decodable lines -/

theorem parseGo_proj (lines : List (List Char)) :
    ∀ (prev : Option (List Char)) (n : Nat) (acc : List HostEntry),
      (∀ l ∈ lines, (jsTrim l).isEmpty = true ∨
        startsWithL (jsTrim l) ['#'] = false) →
      (parseGo prev n acc lines).map entryProj =
        acc.map entryProj ++ linesProj lines := by
  induction lines with
  | nil =>
    intro prev n acc _
    simp [parseGo, linesProj]
  | cons raw rest ih =>
    intro prev n acc h
    have hrest : ∀ l ∈ rest, (jsTrim l).isEmpty = true ∨
        startsWithL (jsTrim l) ['#'] = false :=
      fun l hl => h l (List.mem_cons_of_mem raw hl)
    simp only [parseGo, linesProj]
    by_cases hb : (jsTrim raw).isEmpty = true
    · rw [if_pos hb, if_pos hb]
      exact ih _ _ _ hrest
    · have hst : startsWithL (jsTrim raw) ['#'] = false := by
        rcases h raw (List.mem_cons_self raw rest) with h1 | h1
        · exact absurd h1 hb
        · exact h1
      rw [if_neg hb, if_neg hb, if_neg (by simp [hst]),
        parseEntryLine_reId (jsTrim raw) n]
      cases he : parseEntryLine (jsTrim raw) 0 with
      | none =>
        simp only [Option.map_none']
        exact ih _ _ _ hrest
      | some e =>
        simp only [Option.map_some']
        rw [ih _ _ _ hrest, List.map_append]
        have hre : entryProj { e with id := "entry-" ++ toString n } =
            entryProj e := rfl
        simp [hre]

theorem parseGo_good (lines : List (List Char)) :
    ∀ (prev : Option (List Char)) (n : Nat) (acc : List HostEntry),
      (∀ e ∈ acc, GoodEntry e) →
      (∀ l ∈ lines, (jsTrim l).isEmpty = true ∨
        (startsWithL (jsTrim l) ['#'] = false ∧
          ∀ m, ∃ e, parseEntryLine (jsTrim l) m = some e ∧ GoodEntry e)) →
      ∀ e ∈ parseGo prev n acc lines, GoodEntry e := by
  induction lines with
  | nil =>
    intro prev n acc hacc _
    simpa [parseGo] using hacc
  | cons raw rest ih =>
    intro prev n acc hacc h
    have hrest := fun l hl => h l (List.mem_cons_of_mem raw hl)
    simp only [parseGo]
    by_cases hb : (jsTrim raw).isEmpty = true
    · rw [if_pos hb]
      exact ih _ _ _ hacc hrest
    · rcases h raw (List.mem_cons_self raw rest) with h1 | ⟨hst, hdec⟩
      · exact absurd h1 hb
      rw [if_neg hb, if_neg (by simp [hst])]
      obtain ⟨e, he, hge⟩ := hdec n
      rw [he]
      refine ih _ _ _ ?_ hrest
      intro x hx
      rcases List.mem_append.mp hx with hx | hx
      · exact hacc x hx
      · simp only [List.mem_singleton] at hx
        subst hx
        exact hge

/-- Entries that are all `GoodEntry` format to a list of single lines that
are trimmed, nonblank, not comment lines, newline-free, and whose
counter-independent parse projections are exactly the projections of the
entries. -/
theorem goodEntries_lines {entries : List HostEntry}
    (hg : ∀ e ∈ entries, GoodEntry e) :
    ∃ ls : List (List Char),
      (entries.map formatEntry).flatten = ls.map (fun l => (⟨l⟩ : String)) ∧
      (∀ l ∈ ls, jsTrim l = l ∧ l ≠ [] ∧ startsWithL l ['#'] = false ∧
        '\n' ∉ l) ∧
      linesProj ls = entries.map entryProj := by
  induction entries with
  | nil =>
    exact ⟨[], rfl, fun l hl => absurd hl (List.not_mem_nil l), rfl⟩
  | cons e es ih =>
    obtain ⟨ls, hflat, hprops, hproj⟩ :=
      ih (fun x hx => hg x (List.mem_cons_of_mem e hx))
    obtain ⟨fl, hfe, htrim, hflne, hstart, hnl, hdec⟩ :=
      goodEntry_format (hg e (List.mem_cons_self e es))
    refine ⟨fl :: ls, ?_, ?_, ?_⟩
    · show formatEntry e ++ (es.map formatEntry).flatten =
        (fl :: ls).map (fun l => (⟨l⟩ : String))
      rw [hfe, hflat, List.map_cons]
      rfl
    · intro l hl
      rcases List.mem_cons.mp hl with h | h
      · subst h
        exact ⟨htrim, hflne, hstart, hnl⟩
      · exact hprops l h
    · obtain ⟨e', he', hpe'⟩ := hdec 0
      have hfe' : fl.isEmpty = false := by
        cases fl with
        | nil => exact absurd rfl hflne
        | cons c t => rfl
      simp only [linesProj, List.map_cons]
      rw [htrim, if_neg (by simp [hfe']), he']
      show entryProj e' :: linesProj ls = entryProj e :: es.map entryProj
      rw [hpe', hproj]

/-- Re-parsing the serialized form of a list of `GoodEntry` entries recovers
the same projections: the two header comment lines and the blank separator
produce no entries and attach no comments (the counter advances past them),
and every formatted entry line decodes back to an entry with the same
projection. The impure timestamp is any nonempty whitespace-free string. -/
theorem stringify_reparse {entries : List HostEntry} {now : String}
    (hgood : ∀ e ∈ entries, GoodEntry e)
    (hnne : now.data ≠ []) (hnws : ∀ c ∈ now.data, isWsChar c = false) :
    (parse (stringify now entries)).map entryProj = entries.map entryProj := by
  obtain ⟨ls, hflat, hprops, hproj⟩ := goodEntries_lines hgood
  have hdata0 : (stringify now entries).data =
      joinWith ['\n']
        ((["# Hosts file managed by iHosts", "# Generated at " ++ now, ""] ++
          (entries.map formatEntry).flatten).map String.data) ++ ['\n'] := rfl
  have hdata : (stringify now entries).data =
      joinWith ['\n'] ("# Hosts file managed by iHosts".data ::
        ("# Generated at ".data ++ now.data) :: [] :: ls) ++ ['\n'] := by
    rw [hdata0, hflat, List.map_append, map_data_mk]
    rfl
  have hnl2 : '\n' ∉ "# Generated at ".data ++ now.data := by
    intro hm
    rcases List.mem_append.mp hm with h | h
    · exact absurd h (by decide)
    · have := hnws _ h
      simp [isWsChar] at this
  have hsplit : splitOnChar '\n' (stringify now entries).data =
      "# Hosts file managed by iHosts".data ::
        ("# Generated at ".data ++ now.data) :: [] :: (ls ++ [[]]) := by
    rw [hdata, splitOnChar_join_lines (by simp) (by
      intro p hp
      simp only [List.mem_cons] at hp
      rcases hp with rfl | rfl | rfl | hp
      · decide
      · exact hnl2
      · simp
      · exact (hprops p hp).2.2.2)]
    simp
  have hstep1 : ∀ X : List (List Char),
      parseGo none 0 [] ("# Hosts file managed by iHosts".data :: X) =
        parseGo (some "# Hosts file managed by iHosts".data) 1 [] X :=
    fun X => rfl
  have hA : ("# Generated at ".data ++ now.data : List Char) =
      '#' :: ' ' :: ("Generated at ".data ++ now.data) := rfl
  have htjC : TokJoins ["Generated".data, "at".data, now.data]
      ("Generated at ".data ++ now.data) := by
    have h3 : TokJoins [now.data] now.data :=
      TokJoins.single now.data hnne hnws
    have h2 : TokJoins ["at".data, now.data]
        ("at".data ++ [' '] ++ now.data) :=
      TokJoins.cons "at".data [' '] now.data [now.data] (by decide) (by decide)
        (by simp) (by
          intro c hc
          simp only [List.mem_singleton] at hc
          subst hc
          rfl) h3
    have h1 : TokJoins ["Generated".data, "at".data, now.data]
        ("Generated".data ++ [' '] ++ ("at".data ++ [' '] ++ now.data)) :=
      TokJoins.cons "Generated".data [' ']
        ("at".data ++ [' '] ++ now.data) ["at".data, now.data]
        (by decide) (by decide) (by simp) (by
          intro c hc
          simp only [List.mem_singleton] at hc
          subst hc
          rfl) h2
    rw [show ("Generated at ".data ++ now.data : List Char) =
      "Generated".data ++ [' '] ++ ("at".data ++ [' '] ++ now.data) from rfl]
    exact h1
  have hstep2 : ∀ (p0 : List Char) (X : List (List Char)),
      parseGo (some p0) 1 [] (("# Generated at ".data ++ now.data) :: X) =
        parseGo (some ("# Generated at ".data ++ now.data)) 2 [] X := by
    intro p0 X
    have htrimA : jsTrim ("# Generated at ".data ++ now.data) =
        "# Generated at ".data ++ now.data := by
      apply jsTrim_eq_self_iff.mpr
      constructor
      · intro x hx
        have hx' : '#' = x := by
          rw [hA] at hx
          simpa using hx
        subst hx'
        decide
      · intro x hx
        rw [List.getLast?_append_of_ne_nil _ hnne] at hx
        exact hnws x (List.mem_of_mem_getLast? hx)
    have hdropA : (("# Generated at ".data ++ now.data : List Char)).drop 1 =
        ' ' :: ("Generated at ".data ++ now.data) := by
      rw [hA]
      rfl
    have hcc : jsTrim ((("# Generated at ".data ++ now.data :
        List Char)).drop 1) = "Generated at ".data ++ now.data := by
      rw [hdropA, show (' ' :: ("Generated at ".data ++ now.data)) =
          [' '] ++ ("Generated at ".data ++ now.data) from rfl,
        jsTrim_ws_append (by
          intro c hc
          simp only [List.mem_singleton] at hc
          subst hc
          rfl),
        tokJoins_trimmed htjC]
    simp only [parseGo]
    rw [htrimA, if_neg (by rw [hA]; simp), if_pos (by rw [hA]; rfl), hcc,
      parseEntryLine_none_of_invalid (tokJoins_wsSplit htjC) (by decide)]
    rfl
  have hstep3 : ∀ (p0 : List Char) (X : List (List Char)),
      parseGo (some p0) 2 [] ([] :: X) = parseGo (some []) 2 [] X :=
    fun p0 X => rfl
  have hcond : ∀ l ∈ ls ++ [[]], (jsTrim l).isEmpty = true ∨
      startsWithL (jsTrim l) ['#'] = false := by
    intro l hl
    rcases List.mem_append.mp hl with h | h
    · obtain ⟨ht, hlne, hstw, hnlw⟩ := hprops l h
      right
      rw [ht]
      exact hstw
    · simp only [List.mem_singleton] at h
      subst h
      left
      rfl
  have h00 : linesProj [[]] = [] := rfl
  calc (parse (stringify now entries)).map entryProj
      = (parseGo none 0 []
          (splitOnChar '\n' (stringify now entries).data)).map entryProj := by
        rw [parse]
    _ = (parseGo (some []) 2 [] (ls ++ [[]])).map entryProj := by
        rw [hsplit, hstep1, hstep2, hstep3]
    _ = ([] : List HostEntry).map entryProj ++ linesProj (ls ++ [[]]) :=
        parseGo_proj (ls ++ [[]]) (some []) 2 [] hcond
    _ = entries.map entryProj := by
        rw [linesProj_append, hproj, h00]
        simp

/-- The entries produced by parsing a text of blank lines and strictly
well-formed entry lines all satisfy the `GoodEntry` invariant. -/
theorem parse_good {content : String}
    (hwf : ∀ l ∈ splitOnChar '\n' content.data,
      jsTrim l = [] ∨ strictWfLine l = true) :
    ∀ e ∈ parse content, GoodEntry e := by
  rw [parse]
  apply parseGo_good
  · intro e he
    exact absurd he (List.not_mem_nil e)
  · intro l hl
    rcases hwf l hl with h | h
    · left
      rw [h]
      rfl
    · right
      obtain ⟨h1, h2, h3⟩ :=
        strictWf_decode h (sep_not_mem_of_mem_splitOnChar hl)
      exact ⟨h2, h3⟩

/-- Claim C1 (amended): for every text whose newline-split lines are blank or
strictly well-formed entry lines (a `#`-free address accepted by the IP
validator, one or more `#`-free hostnames, and an optional comment whose `#`
marker stands alone as a token and whose text tokens carry `#` at most as a
leading character), one further serialize/parse round trip preserves the
parsed entries up to structural equality of ip, hostname set, enabled flag
and comment, for any nonempty whitespace-free generation timestamp. The
particular single-entry instance of the frozen claim fails — see the
counterexample: the comment word `dev` reappears as an extra hostname. -/
theorem roundtrip_amended (content now : String)
    (hnne : now.data ≠ []) (hnws : ∀ c ∈ now.data, isWsChar c = false)
    (hwf : ∀ l ∈ splitOnChar '\n' content.data,
      jsTrim l = [] ∨ strictWfLine l = true) :
    (parse (stringify now (parse content))).map entryProj =
      (parse content).map entryProj :=
  stringify_reparse (parse_good hwf) hnne hnws

/-- Counterexample to claim C1 as frozen: its concrete instance fails. For
the enabled entry with ip 10.0.0.5, hostnames a.test and b.test and comment
dev, serializing the one-entry list and parsing it back does not reproduce
the projection (ip, hostname set, enabled flag, comment): the comment word
dev is also picked up as a hostname of the re-parsed entry, so the hostname
set grows. -/
theorem roundtrip_counterexample :
    ¬ ((parse (stringify "2025-01-01T00:00:00.000Z"
        [sampleRoundTripEntry])).map entryProj =
      [entryProj sampleRoundTripEntry]) := by decide

/-- Witness for the amended claim C1, at the one-line text
10.0.0.5 a.test b.test # dev and a concrete timestamp: the text is strictly
well-formed, the timestamp is nonempty and whitespace-free, and the round
trip preserves the parsed projections. -/
theorem roundtrip_amended_witness :
    ((("2025-01-01T00:00:00.000Z" : String).data ≠ [] ∧
        (∀ c ∈ ("2025-01-01T00:00:00.000Z" : String).data,
          isWsChar c = false)) ∧
      ∀ l ∈ splitOnChar '\n' ("10.0.0.5 a.test b.test # dev" : String).data,
        jsTrim l = [] ∨ strictWfLine l = true) ∧
    (parse (stringify "2025-01-01T00:00:00.000Z"
        (parse "10.0.0.5 a.test b.test # dev"))).map entryProj =
      (parse "10.0.0.5 a.test b.test # dev").map entryProj :=
  ⟨⟨⟨by decide, by decide⟩, by decide⟩,
    roundtrip_amended "10.0.0.5 a.test b.test # dev" "2025-01-01T00:00:00.000Z"
      (by decide) (by decide) (by decide)⟩

end IHosts
